import Mathlib

/-!
Verification of the Scene Sync Adapter in `siborg/create/human/human.py`
(`write_properties`, `set_prim`, `import_meshes`) against its design spec.

The USD custom-data dictionary (an external collaborator; per the spec a
nested dictionary "readable/writable by colon-delimited key path") is
modelled as a nested association list.  A USD dictionary is unordered
(entries compare by content), so the association-list order is a
representation choice internal to the model; we use a move-to-back update
(remove the key, append the new binding), a canonical representative of
the unordered dictionary.  The MakeHuman side (`MHCaller`, modifiers,
proxies, meshes) is not part of the analyzed source tree, so it is
modelled from the spec's description of the Character Model Provider
interface; `set_prim`'s calls into it are reified as an effect record so
that the claims about those calls can be stated.
-/

namespace HumanGen

/-! ## Definitions -/

/-- A scalar value stored in USD custom data: booleans, numbers
(modelled as rationals; the adapter only stores and retrieves them,
no arithmetic is performed) and strings. -/
inductive Val where
  | vbool (b : Bool)
  | vnum (q : ℚ)
  | vstr (s : String)
  deriving DecidableEq

/-- Modelled from the spec: a node of a USD custom-data dictionary,
"nested by colon-delimited key segments": either a scalar value or a
nested dictionary (association list from key segment to node). -/
inductive CData where
  | leaf (v : Val)
  | dict (entries : List (String × CData))

/-- A (one level of a) custom-data dictionary. -/
abbrev AList := List (String × CData)

/-- First-match lookup in one dictionary level. -/
def lookupA : AList → String → Option CData
  | [], _ => none
  | (k, v) :: rest, k' => if k = k' then some v else lookupA rest k'

/-- View an optional node as a dictionary level: a nested dictionary gives
its entries, anything else (absent key, scalar) gives the empty dictionary,
matching USD's behaviour of overwriting a non-dictionary intermediate
value when writing through it. -/
def asDictO : Option CData → AList
  | some (CData.dict d) => d
  | _ => []

/-- Remove every binding of key `k` from one dictionary level. -/
def eraseKey (k : String) : AList → AList
  | [] => []
  | e :: rest => if e.1 = k then eraseKey k rest else e :: eraseKey k rest

/-- Update the binding of key `k` using `f` applied to its current value,
moving the binding to the back (canonical representative of the unordered
USD dictionary). -/
def updAt (l : AList) (k : String) (f : Option CData → CData) : AList :=
  eraseKey k l ++ [(k, f (lookupA l k))]

/-- Modelled from the spec: writing a value at a colon-delimited key path
(the Scene Store's `SetCustomDataByKey`), creating/overwriting
intermediate dictionaries as needed. -/
def setPath (d : AList) : List String → Val → AList
  | [], _ => d
  | k :: rest, v =>
      updAt d k (fun cur =>
        if rest.isEmpty then CData.leaf v else CData.dict (setPath (asDictO cur) rest v))

/-- The per-key update function contributed by one write whose remaining
path (after the current level's key) is `rest`. -/
def stepF (rest : List String) (v : Val) (cur : Option CData) : CData :=
  if rest.isEmpty then CData.leaf v else CData.dict (setPath (asDictO cur) rest v)

/-- A write: an (already split) key path together with the value. -/
abbrev Write := List String × Val

/-- Apply one write to a dictionary. -/
def app1 (l : AList) (w : Write) : AList := setPath l w.1 w.2

/-- Apply a sequence of writes, left to right. -/
def W (ws : List Write) (l : AList) : AList := ws.foldl app1 l

/-- The remaining writes, at one level down, of all writes whose first key
segment is `k`. -/
def tailsAt (k : String) : List Write → List Write
  | [] => []
  | w :: ws =>
      match w.1 with
      | [] => tailsAt k ws
      | k' :: rest => if k' = k then (rest, w.2) :: tailsAt k ws else tailsAt k ws

/-- The first key segments of a write sequence. -/
def headsOf : List Write → List String
  | [] => []
  | w :: ws =>
      match w.1 with
      | [] => headsOf ws
      | k :: _ => k :: headsOf ws

/-- Remove a string from a list of keys. -/
def eraseS (k : String) : List String → List String
  | [] => []
  | a :: rest => if a = k then eraseS k rest else a :: eraseS k rest

/-- The keys written by a sequence, each kept at its last write position
(the position a move-to-back dictionary leaves it in). -/
def lastKeys (ws : List Write) : List String :=
  (headsOf ws).foldl (fun acc k => eraseS k acc ++ [k]) []

/-- Iterate the per-key update functions of a write sequence on the value
stored at a single key. -/
def chainW (ts : List Write) (x : Option CData) : Option CData :=
  ts.foldl (fun cur t => some (stepF t.1 t.2 cur)) x

/-- The entries of `l` whose keys the write sequence never touches. -/
def filterUntouched (ws : List Write) : AList → AList
  | [] => []
  | e :: rest =>
      if e.1 ∈ headsOf ws then filterUntouched ws rest
      else e :: filterUntouched ws rest

/-- Placeholder value (never reached on touched keys). -/
def junkC : CData := CData.leaf (Val.vbool false)

/-- Value stored at key `k` after a write sequence runs over `l`. -/
def entryVal (ws : List Write) (l : AList) (k : String) : CData :=
  (chainW (tailsAt k ws) (lookupA l k)).getD junkC

/-- Total number of key segments in a write sequence. -/
def sizeW (ws : List Write) : Nat := (ws.map (fun w => w.1.length)).sum

/-- Read a value back at a colon-delimited key path (the Scene Store's
`GetCustomDataByKey` / nested dictionary access). -/
def getPath (cd : AList) : List String → Option CData
  | [] => none
  | [k] => lookupA cd k
  | k :: rest => getPath (asDictO (lookupA cd k)) rest

/-- Split a string at colons, the Scene Store's key-path delimiter.
Structural recursion over the character list so that concrete instances
reduce inside the kernel; agrees with the usual split-on-separator
semantics (always returns at least one segment). -/
def splitChAux (sep : Char) : List Char → List Char → List String
  | [], acc => [String.mk acc.reverse]
  | c :: cs, acc =>
      if c = sep then String.mk acc.reverse :: splitChAux sep cs []
      else splitChAux sep cs (c :: acc)

def splitColon (s : String) : List String := splitChAux ':' s.toList []

/-- Modelled from the spec: a modifier held by the Character Model
Provider; the adapter reads its fully-qualified name (`fullName`) and its
current value (`getValue()`, the `value` field). -/
structure Modifier where
  fullName : String
  value : ℚ
  deriving DecidableEq

/-- Modelled from the spec: a proxy held by the Character Model Provider
(name, type tag, source file path).  An unset type in the Python source
(`p.type` falsy) is modelled as the empty string. -/
structure Proxy where
  name : String
  type : String
  file : String
  deriving DecidableEq

/-- Modelled from the spec: the provider state the adapter reads during
export (`MHCaller.modifiers`, `MHCaller.proxies`). -/
structure MHState where
  modifiers : List Modifier
  proxies : List Proxy

/-- Modelled from the spec: the Scene Store's `SetCustomDataByKey`,
writing a value at a colon-delimited key path. -/
def setCustomDataByKey (cd : AList) (key : String) (v : Val) : AList :=
  setPath cd (splitColon key) v

/-- `type = p.type if p.type else "proxymeshes"` from the source. -/
def defaultedType (p : Proxy) : String :=
  if p.type = "" then "proxymeshes" else p.type

/-- Translation of `Human.write_properties` (human.py, lines 213-255):
mark the prim as human, write every modifier under `Modifiers:<fullName>`,
and every proxy under the type-keyed `Proxies:...` scheme. -/
def write_properties (st : MHState) (cd : AList) : AList :=
  let cd1 := setCustomDataByKey cd "human" (Val.vbool true)
  let cd2 := st.modifiers.foldl
    (fun acc m =>
      setCustomDataByKey acc ("Modifiers:" ++ m.fullName) (Val.vnum m.value)) cd1
  st.proxies.foldl
    (fun acc p =>
      let type := defaultedType p
      if type = "clothes" ∨ type = "proxymeshes" then
        setCustomDataByKey acc ("Proxies:" ++ type ++ ":" ++ p.name) (Val.vstr p.file)
      else
        setCustomDataByKey acc ("Proxies:" ++ type) (Val.vstr p.file)) cd2

/-- The write performed for one modifier. -/
def modWrite (m : Modifier) : Write :=
  (splitColon ("Modifiers:" ++ m.fullName), Val.vnum m.value)

/-- The write performed for one proxy. -/
def proxWrite (p : Proxy) : Write :=
  let type := defaultedType p
  if type = "clothes" ∨ type = "proxymeshes" then
    (splitColon ("Proxies:" ++ type ++ ":" ++ p.name), Val.vstr p.file)
  else
    (splitColon ("Proxies:" ++ type), Val.vstr p.file)

/-- The full write sequence `write_properties` performs. -/
def actualWrites (st : MHState) : List Write :=
  (splitColon "human", Val.vbool true) ::
    (st.modifiers.map modWrite ++ st.proxies.map proxWrite)

/-- A proxy routed into a nested `Proxies:<type>:<name>` subdictionary. -/
abbrev clothesLike (p : Proxy) : Prop :=
  defaultedType p = "clothes" ∨ defaultedType p = "proxymeshes"

/-- The key path a proxy's file is written at. -/
def keyPathOf (p : Proxy) : List String :=
  if clothesLike p then ["Proxies", defaultedType p, p.name]
  else ["Proxies", defaultedType p]

/-- The modifier fullNames and proxy key strings split as USD splits them.
Stated as concrete equations so hypotheses about name shapes (no colon in
a fullName, type or proxy name) are checkable by evaluation. -/
abbrev SplitOk (st : MHState) : Prop :=
  (∀ m ∈ st.modifiers,
    splitColon ("Modifiers:" ++ m.fullName) = ["Modifiers", m.fullName]) ∧
  (∀ p ∈ st.proxies,
    splitColon ("Proxies:" ++ defaultedType p ++ ":" ++ p.name) =
        ["Proxies", defaultedType p, p.name] ∧
      splitColon ("Proxies:" ++ defaultedType p) = ["Proxies", defaultedType p])

/-- One modifier's write as seen below the "Modifiers" key. -/
def modTail (m : Modifier) : Write := ([m.fullName], Val.vnum m.value)

/-- One proxy's write as seen below the "Proxies" key. -/
def proxTail (p : Proxy) : Write :=
  if clothesLike p then ([defaultedType p, p.name], Val.vstr p.file)
  else ([defaultedType p], Val.vstr p.file)

/-- One proxy's write as seen below its own type key. -/
def innerTail (p : Proxy) : Write :=
  if clothesLike p then ([p.name], Val.vstr p.file)
  else ([], Val.vstr p.file)

/-! Import path (`set_prim`).  The provider's modifier store and the calls
`set_prim` makes into the provider are modelled from the spec; the calls
(`setValue` with its skip-dependencies flag, `add_proxy`, the final
`applyAllTargets`) are reified in an effect record. -/

/-- Modelled from the spec: look a modifier up by fully-qualified name
(`human.getModifier`); absent names have no binding, so the caller fails. -/
def lookupMod : List Modifier → String → Option ℚ
  | [], _ => none
  | m :: rest, n => if m.fullName = n then some m.value else lookupMod rest n

/-- Modelled from the spec: `setValue` on the modifier found by name —
replace the value of the first modifier with that name, in place. -/
def setModValue : List Modifier → String → ℚ → List Modifier
  | [], _, _ => []
  | m :: rest, n, q =>
      if m.fullName = n then { m with value := q } :: rest
      else m :: setModValue rest n q

/-- The provider calls issued by one `set_prim` run: each `setValue` call
(name, value, skipDependencies flag), each `add_proxy` call (raw value and
type), and how many times `applyAllTargets` ran. -/
structure ImportFx where
  modSets : List (String × ℚ × Bool)
  proxyLoads : List (CData × String)
  applyCount : Nat

def emptyFx : ImportFx := ⟨[], [], 0⟩

/-- The modifier loop of `set_prim` (human.py, lines 269-271):
`MHCaller.human.getModifier(m).setValue(v, skipDependencies=False)` for
every entry; an unknown name raises out of the loop (lookup failure),
leaving the earlier calls done. -/
def setPrimMods (mods : List Modifier) :
    List (String × CData) → Except String (List Modifier) × List (String × ℚ × Bool)
  | [] => (Except.ok mods, [])
  | (n, cv) :: rest =>
      match cv with
      | CData.leaf (Val.vnum q) =>
          match lookupMod mods n with
          | none => (Except.error ("KeyError: " ++ n), [])
          | some _ =>
              let r := setPrimMods (setModValue mods n q) rest
              (r.1, (n, q, false) :: r.2)
      | _ => (Except.error "TypeError: setValue", [])

/-- Python truthiness of an optional custom-data value (the source's
`if proxies:` check). -/
def pyTruthy : Option CData → Bool
  | none => false
  | some (CData.dict []) => false
  | some (CData.dict (_ :: _)) => true
  | some (CData.leaf (Val.vstr s)) => decide (s ≠ "")
  | some (CData.leaf (Val.vbool b)) => b
  | some (CData.leaf (Val.vnum q)) => decide (q ≠ 0)

/-- The proxy loop of `set_prim` (human.py, lines 278-287): a top-level
type other than "proxymeshes"/"clothes" is registered directly; those two
types iterate their name-to-path subdictionary (name unused), registering
each file.  Iterating `.items()` of a non-dictionary raises. -/
def doProxies : List (String × CData) → Except String Unit × List (CData × String)
  | [] => (Except.ok (), [])
  | (t, v) :: rest =>
      if t ≠ "proxymeshes" ∧ t ≠ "clothes" then
        let r := doProxies rest
        (r.1, (v, t) :: r.2)
      else
        match v with
        | CData.dict ds =>
            let r := doProxies rest
            (r.1, ds.map (fun e => (e.2, t)) ++ r.2)
        | CData.leaf _ => (Except.error "AttributeError: items", [])

/-- The `add_proxy` calls one top-level "Proxies" entry produces: a
non-special type registers its value directly, the two special types
register every file of their subdictionary. -/
def entryLoads (e : String × CData) : List (CData × String) :=
  if e.1 ≠ "proxymeshes" ∧ e.1 ≠ "clothes" then [(e.2, e.1)]
  else (asDictO (some e.2)).map (fun d => (d.2, e.1))

/-- Modelled from the spec: `applyAllTargets` re-applies all modifier and
target effects to the mesh geometry; the modifier value assignment itself
is unchanged (geometry is outside this model). -/
def applyAllTargets (mods : List Modifier) : List Modifier := mods

/-- Translation of `Human.set_prim` (human.py, lines 257-292): read the
custom data; iterate the entries under "Modifiers" (absent key: Python
calls `.items()` on `None` and raises before anything else runs); if the
"Proxies" value is truthy, run the proxy loop; finally call
`applyAllTargets` once. -/
def set_prim (mods : List Modifier) (cd : AList) :
    Except String (List Modifier) × ImportFx :=
  match lookupA cd "Modifiers" with
  | none => (Except.error "AttributeError: NoneType has no attribute items", emptyFx)
  | some (CData.leaf _) => (Except.error "AttributeError: items", emptyFx)
  | some (CData.dict ms) =>
      let rm := setPrimMods mods ms
      match rm.1 with
      | Except.error e =>
          (Except.error e, { modSets := rm.2, proxyLoads := [], applyCount := 0 })
      | Except.ok mods1 =>
          let pv := lookupA cd "Proxies"
          if pyTruthy pv then
            match pv with
            | some (CData.dict ps) =>
                let rp := doProxies ps
                match rp.1 with
                | Except.error e =>
                    (Except.error e,
                      { modSets := rm.2, proxyLoads := rp.2, applyCount := 0 })
                | Except.ok _ =>
                    (Except.ok (applyAllTargets mods1),
                      { modSets := rm.2, proxyLoads := rp.2, applyCount := 1 })
            | _ =>
                (Except.error "AttributeError: items",
                  { modSets := rm.2, proxyLoads := [], applyCount := 0 })
          else
            (Except.ok (applyAllTargets mods1),
              { modSets := rm.2, proxyLoads := [], applyCount := 1 })

/-! Mesh import (`import_meshes`).  The Scene Store's prims and typed
attributes are modelled from the spec as an association list of prims,
each carrying an association list of attributes; `Set` on an existing
attribute and updating an existing prim replace in place, creation
appends. -/

abbrev Vec3 := ℚ × ℚ × ℚ
abbrev UV := ℚ × ℚ

/-- A typed USD attribute value. -/
inductive AttrVal where
  | pts (l : List Vec3)
  | counts (l : List Nat)
  | idxs (l : List Nat)
  | nrms (l : List Vec3)
  | uvs (l : List UV)
  | tok (s : String)

/-- Modelled from the spec: a scene prim with a schema type name and its
attributes. -/
structure UPrim where
  typeName : String
  attrs : List (String × AttrVal)

/-- Modelled from the spec: the Scene Store, addressed by path. -/
abbrev Stage := List (String × UPrim)

/-- Generic first-match lookup for prim and attribute stores. -/
def lookupL {β : Type} : List (String × β) → String → Option β
  | [], _ => none
  | (k, v) :: rest, k' => if k = k' then some v else lookupL rest k'

/-- In-place replace-or-append update for attribute and prim stores. -/
def updIn {β : Type} (l : List (String × β)) (k : String) (v : β) :
    List (String × β) :=
  if l.any (fun e => e.1 = k) then
    l.map (fun e => if e.1 = k then (k, v) else e)
  else l ++ [(k, v)]

/-- Modelled from the spec: one mesh of the provider's current object set,
with the fields `import_meshes` reads (`vertsPerFaceForExport`, `fvert`,
`face_mask`, `fuvs`, `getCoords()`, `getNormals()`, and the UV table
behind `getUVs`). -/
structure HMesh where
  name : String
  vertsPerFaceForExport : Nat
  fvert : List (List Nat)
  face_mask : List Bool
  fuvs : List (List Nat)
  coords : List Vec3
  normals : List Vec3
  uvtable : List UV

/-- `mesh.getCoords() + offset` (componentwise vector shift). -/
def addOffset (off : Vec3) (cs : List Vec3) : List Vec3 :=
  cs.map (fun c => (c.1 + off.1, c.2.1 + off.2.1, c.2.2 + off.2.2))

/-- `mesh.getUVs(newuvindices)`: look each UV index up in the UV table. -/
def getUVs (m : HMesh) (idxs : List Nat) : List UV :=
  idxs.map (fun i => m.uvtable.getD i ((0 : ℚ), (0 : ℚ)))

/-- The pruning loop of `import_meshes` (human.py, lines 123-131) for the
vertex indices: for each face index `fn` (in order), skip it unless
`face_mask[fn]` holds, else append the first `nPerFace` entries of its
row. -/
def pruneIdx (mask : List Bool) (n : Nat) (rows : List (List Nat)) : List Nat :=
  ((List.range rows.length).filter (fun fn => mask.getD fn false)).flatMap
    (fun fn => (List.range n).map (fun i => (rows.getD fn []).getD i 0))

/-- The same loop's UV-index accumulation: indexed by the face number of
`fvert`, reading the row from `fuvs`. -/
def pruneUVIdx (mask : List Bool) (n : Nat) (fvert fuvs : List (List Nat)) :
    List Nat :=
  ((List.range fvert.length).filter (fun fn => mask.getD fn false)).flatMap
    (fun fn => (List.range n).map (fun i => (fuvs.getD fn []).getD i 0))

/-- `nface = [nPerFace] * int(len(newvertindices) / nPerFace)`. -/
def nfaceList (newvert : List Nat) (n : Nat) : List Nat :=
  List.replicate (newvert.length / n) n

/-- Translation of the per-mesh body of `Human.import_meshes` (human.py,
lines 113-206): prune masked faces, compute the child path from the
sanitized mesh name, then update the existing prim's geometry attributes
in place if the path holds a valid prim, else define a new Mesh prim;
in both cases set the texture-coordinate primvar and the subdivision
scheme "none".  Returns the updated stage and the path. -/
def importMesh (sanitize : String → String) (prim_path : String) (offset : Vec3)
    (stage : Stage) (mesh : HMesh) : Stage × String :=
  let nPerFace := mesh.vertsPerFaceForExport
  let newvert := pruneIdx mesh.face_mask nPerFace mesh.fvert
  let newuv := pruneUVIdx mesh.face_mask nPerFace mesh.fvert mesh.fuvs
  let coords := addOffset offset mesh.coords
  let name := sanitize mesh.name
  let path := prim_path ++ "/" ++ name
  let nface := nfaceList newvert nPerFace
  match lookupL stage path with
  | some pr =>
      let a1 := updIn pr.attrs "points" (AttrVal.pts coords)
      let a2 := updIn a1 "faceVertexCounts" (AttrVal.counts nface)
      let a3 := updIn a2 "faceVertexIndices" (AttrVal.idxs newvert)
      let a4 := updIn a3 "normals" (AttrVal.nrms mesh.normals)
      let a5 := updIn a4 "primvars:st" (AttrVal.uvs (getUVs mesh newuv))
      let a6 := updIn a5 "subdivisionScheme" (AttrVal.tok "none")
      (updIn stage path { pr with attrs := a6 }, path)
  | none =>
      let attrs := [("points", AttrVal.pts coords),
        ("faceVertexCounts", AttrVal.counts nface),
        ("faceVertexIndices", AttrVal.idxs newvert),
        ("normals", AttrVal.nrms mesh.normals),
        ("normals:interpolation", AttrVal.tok "vertex"),
        ("primvars:st", AttrVal.uvs (getUVs mesh newuv)),
        ("subdivisionScheme", AttrVal.tok "none")]
      (stage ++ [(path, { typeName := "Mesh", attrs := attrs })], path)

/-- Translation of `Human.import_meshes` (human.py, lines 86-211) over the
provider's current mesh list (the `sanitize` collaborator from `.shared`
is a parameter: the spec requires only that it is a deterministic
function).  Returns the stage and the scene paths in mesh-iteration
order. -/
def import_meshes (sanitize : String → String) (prim_path : String)
    (stage : Stage) (meshes : List HMesh) (offset : Vec3) : Stage × List String :=
  meshes.foldl (fun acc mesh =>
    let r := importMesh sanitize prim_path offset acc.1 mesh
    (r.1, acc.2 ++ [r.2])) (stage, [])

/-- Mesh used to examine the face-mask claim: two triangles sharing
vertex 0, with face 0 masked out. -/
def cxMesh : HMesh :=
  { name := "m", vertsPerFaceForExport := 3,
    fvert := [[0, 1, 2], [0, 3, 4]], face_mask := [false, true],
    fuvs := [[0, 1, 2], [3, 4, 5]], coords := [], normals := [], uvtable := [] }

/-- The spec's §8 example state: human "Greta" with one modifier and one
clothes proxy. -/
def gretaState : MHState :=
  { modifiers := [{ fullName := "head/head-age-old", value := 7/10 }],
    proxies := [{ name := "tshirt", type := "clothes", file := "tshirt.mhclo" }] }

/-- The custom data the spec's §8 example requires after export. -/
def gretaExpected : AList :=
  [("human", CData.leaf (Val.vbool true)),
   ("Modifiers", CData.dict [("head/head-age-old", CData.leaf (Val.vnum (7/10)))]),
   ("Proxies", CData.dict
     [("clothes", CData.dict [("tshirt", CData.leaf (Val.vstr "tshirt.mhclo"))])])]

/-! ## Theorems -/

theorem setPath_cons (d : AList) (k : String) (rest : List String) (v : Val) :
    setPath d (k :: rest) v = updAt d k (stepF rest v) := rfl

@[simp] theorem W_nil (l : AList) : W [] l = l := rfl

theorem W_cons (w : Write) (ws : List Write) (l : AList) :
    W (w :: ws) l = W ws (app1 l w) := rfl

theorem W_append (ws₁ ws₂ : List Write) (l : AList) :
    W (ws₁ ++ ws₂) l = W ws₂ (W ws₁ l) :=
  List.foldl_append _ _ _ _

@[simp] theorem lookupA_nil (k : String) : lookupA [] k = none := rfl

@[simp] theorem lookupA_cons (k : String) (v : CData) (rest : AList) (k' : String) :
    lookupA ((k, v) :: rest) k' = if k = k' then some v else lookupA rest k' := rfl

theorem lookupA_append (l₁ l₂ : AList) (k : String) :
    lookupA (l₁ ++ l₂) k = (lookupA l₁ k).orElse (fun _ => lookupA l₂ k) := by
  induction l₁ with
  | nil => simp
  | cons e rest ih =>
      obtain ⟨ek, ev⟩ := e
      by_cases h : ek = k
      · simp [h]
      · simp [h, ih]

@[simp] theorem eraseKey_nil (k : String) : eraseKey k [] = [] := rfl

theorem eraseKey_cons (k : String) (e : String × CData) (rest : AList) :
    eraseKey k (e :: rest) =
      if e.1 = k then eraseKey k rest else e :: eraseKey k rest := rfl

theorem lookupA_eraseKey_self (l : AList) (k : String) :
    lookupA (eraseKey k l) k = none := by
  induction l with
  | nil => rfl
  | cons e rest ih =>
      obtain ⟨ek, ev⟩ := e
      rw [eraseKey_cons]
      by_cases h : ek = k
      · simpa [h] using ih
      · simpa [h] using ih

theorem lookupA_eraseKey_other (l : AList) (k k' : String) (h : k' ≠ k) :
    lookupA (eraseKey k l) k' = lookupA l k' := by
  induction l with
  | nil => rfl
  | cons e rest ih =>
      obtain ⟨ek, ev⟩ := e
      rw [eraseKey_cons]
      by_cases he : ek = k
      · have hkk : ¬ k = k' := fun hk => h hk.symm
        subst he
        simp [hkk, ih]
      · by_cases he' : ek = k'
        · simp [he, he', h]
        · simp [he, he', ih]

theorem lookupA_updAt_self (l : AList) (k : String) (f : Option CData → CData) :
    lookupA (updAt l k f) k = some (f (lookupA l k)) := by
  unfold updAt
  rw [lookupA_append, lookupA_eraseKey_self]
  simp

theorem lookupA_updAt_other (l : AList) (k k' : String) (f : Option CData → CData)
    (h : k' ≠ k) : lookupA (updAt l k f) k' = lookupA l k' := by
  unfold updAt
  rw [lookupA_append, lookupA_eraseKey_other l k k' h]
  have hkk : ¬ k = k' := fun hk => h hk.symm
  cases hl : lookupA l k' with
  | none => simp [hkk]
  | some v => simp

@[simp] theorem chainW_nil (x : Option CData) : chainW [] x = x := rfl

theorem chainW_cons (p : List String) (v : Val) (ts : List Write) (x : Option CData) :
    chainW ((p, v) :: ts) x = chainW ts (some (stepF p v x)) := rfl

theorem chainW_append (ts₁ ts₂ : List Write) (x : Option CData) :
    chainW (ts₁ ++ ts₂) x = chainW ts₂ (chainW ts₁ x) :=
  List.foldl_append _ _ _ _

@[simp] theorem tailsAt_nil (k : String) : tailsAt k [] = [] := rfl

theorem tailsAt_cons (k : String) (w : Write) (ws : List Write) :
    tailsAt k (w :: ws) =
      match w.1 with
      | [] => tailsAt k ws
      | k' :: rest => if k' = k then (rest, w.2) :: tailsAt k ws else tailsAt k ws := rfl

theorem tailsAt_append (k : String) (ws₁ ws₂ : List Write) :
    tailsAt k (ws₁ ++ ws₂) = tailsAt k ws₁ ++ tailsAt k ws₂ := by
  induction ws₁ with
  | nil => rfl
  | cons w ws ih =>
      cases hp : w.1 with
      | nil => simp [tailsAt_cons, hp, ih]
      | cons k' rest =>
          by_cases hk : k' = k
          · simp [tailsAt_cons, hp, hk, ih]
          · simp [tailsAt_cons, hp, hk, ih]

@[simp] theorem headsOf_nil : headsOf [] = [] := rfl

theorem headsOf_cons (w : Write) (ws : List Write) :
    headsOf (w :: ws) =
      match w.1 with
      | [] => headsOf ws
      | k :: _ => k :: headsOf ws := rfl

theorem headsOf_append (ws₁ ws₂ : List Write) :
    headsOf (ws₁ ++ ws₂) = headsOf ws₁ ++ headsOf ws₂ := by
  induction ws₁ with
  | nil => rfl
  | cons w ws ih =>
      cases hp : w.1 with
      | nil => simp [headsOf_cons, hp, ih]
      | cons k rest => simp [headsOf_cons, hp, ih]

theorem eraseS_cons (k b : String) (rest : List String) :
    eraseS k (b :: rest) =
      if b = k then eraseS k rest else b :: eraseS k rest := rfl

theorem mem_eraseS (a k : String) (l : List String) :
    a ∈ eraseS k l ↔ a ∈ l ∧ a ≠ k := by
  induction l with
  | nil => simp [eraseS]
  | cons b rest ih =>
      rw [eraseS_cons]
      by_cases hb : b = k
      · rw [if_pos hb, ih]
        subst hb
        constructor
        · rintro ⟨h1, h2⟩; exact ⟨List.mem_cons_of_mem _ h1, h2⟩
        · rintro ⟨h1, h2⟩
          cases List.mem_cons.mp h1 with
          | inl h => exact absurd h h2
          | inr h => exact ⟨h, h2⟩
      · rw [if_neg hb, List.mem_cons, ih, List.mem_cons]
        constructor
        · rintro (h | ⟨h1, h2⟩)
          · exact ⟨Or.inl h, h ▸ hb⟩
          · exact ⟨Or.inr h1, h2⟩
        · rintro ⟨h1 | h1, h2⟩
          · exact Or.inl h1
          · exact Or.inr ⟨h1, h2⟩

theorem mem_foldl_mtb (hs : List String) (acc : List String) (a : String) :
    a ∈ hs.foldl (fun acc k => eraseS k acc ++ [k]) acc ↔ a ∈ acc ∨ a ∈ hs := by
  induction hs generalizing acc with
  | nil => simp
  | cons h rest ih =>
      rw [List.foldl_cons, ih]
      simp only [List.mem_append, mem_eraseS, List.mem_cons, List.mem_singleton]
      tauto

theorem mem_lastKeys (ws : List Write) (a : String) :
    a ∈ lastKeys ws ↔ a ∈ headsOf ws := by
  unfold lastKeys
  rw [mem_foldl_mtb]
  simp

theorem lastKeys_append_single (ws : List Write) (k : String) (rest : List String) (v : Val) :
    lastKeys (ws ++ [(k :: rest, v)]) = eraseS k (lastKeys ws) ++ [k] := by
  unfold lastKeys
  rw [headsOf_append, List.foldl_append]
  rfl

/-- Lookup after a write sequence: the per-key chain applied to the old value. -/
theorem lookupA_W (ws : List Write) (l : AList) (k : String) :
    lookupA (W ws l) k = chainW (tailsAt k ws) (lookupA l k) := by
  induction ws generalizing l with
  | nil => rfl
  | cons w ws ih =>
      obtain ⟨p, v⟩ := w
      rw [W_cons]
      cases p with
      | nil =>
          have happ : app1 l ([], v) = l := rfl
          have ht : tailsAt k (([], v) :: ws) = tailsAt k ws := rfl
          rw [happ, ht, ih]
      | cons k₀ rest =>
          have happ : app1 l (k₀ :: rest, v) = updAt l k₀ (stepF rest v) := rfl
          have ht : tailsAt k ((k₀ :: rest, v) :: ws) =
              if k₀ = k then (rest, v) :: tailsAt k ws else tailsAt k ws := rfl
          rw [happ, ih, ht]
          by_cases hk : k₀ = k
          · subst hk
            rw [if_pos rfl, chainW_cons, lookupA_updAt_self]
          · rw [if_neg hk, lookupA_updAt_other _ _ _ _ (fun h => hk h.symm)]

theorem eraseKey_append (k : String) (a b : AList) :
    eraseKey k (a ++ b) = eraseKey k a ++ eraseKey k b := by
  induction a with
  | nil => rfl
  | cons e rest ih =>
      rw [List.cons_append, eraseKey_cons, eraseKey_cons]
      by_cases h : e.1 = k
      · rw [if_pos h, if_pos h, ih]
      · rw [if_neg h, if_neg h, List.cons_append, ih]

@[simp] theorem filterUntouched_nil_l (ws : List Write) : filterUntouched ws [] = [] := rfl

theorem filterUntouched_cons (ws : List Write) (e : String × CData) (rest : AList) :
    filterUntouched ws (e :: rest) =
      if e.1 ∈ headsOf ws then filterUntouched ws rest
      else e :: filterUntouched ws rest := rfl

theorem filterUntouched_nil_ws (l : AList) : filterUntouched [] l = l := by
  induction l with
  | nil => rfl
  | cons e rest ih => rw [filterUntouched_cons, if_neg (by simp), ih]

theorem filterUntouched_append (ws : List Write) (a b : AList) :
    filterUntouched ws (a ++ b) = filterUntouched ws a ++ filterUntouched ws b := by
  induction a with
  | nil => rfl
  | cons e rest ih =>
      rw [List.cons_append, filterUntouched_cons, filterUntouched_cons]
      by_cases h : e.1 ∈ headsOf ws
      · rw [if_pos h, if_pos h, ih]
      · rw [if_neg h, if_neg h, List.cons_append, ih]

theorem eraseKey_filterUntouched (ws : List Write) (k : String) (rest : List String)
    (v : Val) (l : AList) :
    eraseKey k (filterUntouched ws l) = filterUntouched (ws ++ [(k :: rest, v)]) l := by
  induction l with
  | nil => rfl
  | cons e tl ih =>
      have hmem : e.1 ∈ headsOf (ws ++ [(k :: rest, v)]) ↔
          e.1 ∈ headsOf ws ∨ e.1 = k := by
        rw [headsOf_append]
        have h1 : headsOf [(k :: rest, v)] = [k] := rfl
        rw [h1, List.mem_append, List.mem_singleton]
      rw [filterUntouched_cons, filterUntouched_cons]
      by_cases h : e.1 ∈ headsOf ws
      · rw [if_pos h, if_pos (hmem.mpr (Or.inl h)), ih]
      · rw [if_neg h, eraseKey_cons]
        by_cases hk : e.1 = k
        · rw [if_pos hk, if_pos (hmem.mpr (Or.inr hk)), ih]
        · rw [if_neg hk, if_neg (fun hc => (hmem.mp hc).elim h hk), ih]

theorem eraseKey_map_keys (k : String) (ks : List String) (g : String → CData) :
    eraseKey k (ks.map (fun k' => (k', g k'))) =
      (eraseS k ks).map (fun k' => (k', g k')) := by
  induction ks with
  | nil => rfl
  | cons a rest ih =>
      rw [List.map_cons, eraseKey_cons, eraseS_cons]
      by_cases h : a = k
      · rw [if_pos h, if_pos h, ih]
      · rw [if_neg h, if_neg h, List.map_cons, ih]

theorem entryVal_append_other (ws : List Write) (k : String) (rest : List String)
    (v : Val) (l : AList) (k' : String) (h : k' ≠ k) :
    entryVal (ws ++ [(k :: rest, v)]) l k' = entryVal ws l k' := by
  unfold entryVal
  rw [tailsAt_append]
  have h0 : tailsAt k' [(k :: rest, v)] = [] := by
    have hr : tailsAt k' [(k :: rest, v)] =
        if k = k' then (rest, v) :: tailsAt k' [] else tailsAt k' [] := rfl
    rw [hr, if_neg (fun hc => h hc.symm)]
    rfl
  rw [h0, List.append_nil]

/-- Normal form: a write sequence leaves the untouched entries of `l` in
place (in order) and moves every touched key to the back, in last-write
order, holding the chained value. -/
theorem W_nf (ws : List Write) (hne : ∀ w ∈ ws, w.1 ≠ []) (l : AList) :
    W ws l = filterUntouched ws l ++
      (lastKeys ws).map (fun k => (k, entryVal ws l k)) := by
  induction ws using List.reverseRecOn with
  | nil =>
      rw [filterUntouched_nil_ws]
      have h0 : lastKeys [] = [] := rfl
      rw [h0, List.map_nil, List.append_nil]
      rfl
  | append_singleton ws w ih =>
      obtain ⟨p, v⟩ := w
      have hp : p ≠ [] := hne (p, v) (by simp)
      obtain ⟨k, rest, rfl⟩ := List.exists_cons_of_ne_nil hp
      have hne' : ∀ w ∈ ws, w.1 ≠ [] := fun w hw => hne w (by simp [hw])
      rw [W_append]
      have h1 : W [(k :: rest, v)] (W ws l) = updAt (W ws l) k (stepF rest v) := rfl
      rw [h1]
      unfold updAt
      rw [lookupA_W, ih hne', eraseKey_append, eraseKey_filterUntouched ws k rest v,
        eraseKey_map_keys, lastKeys_append_single, List.map_append]
      have hmap : (eraseS k (lastKeys ws)).map (fun k' => (k', entryVal ws l k')) =
          (eraseS k (lastKeys ws)).map
            (fun k' => (k', entryVal (ws ++ [(k :: rest, v)]) l k')) := by
        apply List.map_congr_left
        intro a ha
        have hak : a ≠ k := ((mem_eraseS a k (lastKeys ws)).mp ha).2
        rw [entryVal_append_other ws k rest v l a hak]
      have hlast : (k, stepF rest v (chainW (tailsAt k ws) (lookupA l k))) =
          (k, entryVal (ws ++ [(k :: rest, v)]) l k) := by
        unfold entryVal
        rw [tailsAt_append]
        have ht : tailsAt k [(k :: rest, v)] = [(rest, v)] := by
          have hr : tailsAt k [(k :: rest, v)] =
              if k = k then (rest, v) :: tailsAt k [] else tailsAt k [] := rfl
          rw [hr, if_pos rfl]
          rfl
        rw [ht, chainW_append]
        have hc : chainW [(rest, v)] (chainW (tailsAt k ws) (lookupA l k)) =
            some (stepF rest v (chainW (tailsAt k ws) (lookupA l k))) := rfl
        rw [hc]
        rfl
      rw [hmap, hlast, List.map_singleton, List.append_assoc]

theorem sizeW_nil : sizeW [] = 0 := rfl

theorem sizeW_cons (p : List String) (v : Val) (ws : List Write) :
    sizeW ((p, v) :: ws) = p.length + sizeW ws := by
  unfold sizeW
  rw [List.map_cons, List.sum_cons]

theorem sizeW_tailsAt_add_length (k : String) (ws : List Write) :
    sizeW (tailsAt k ws) + (tailsAt k ws).length ≤ sizeW ws := by
  induction ws with
  | nil => simp [sizeW_nil]
  | cons w ws ih =>
      obtain ⟨p, v⟩ := w
      cases p with
      | nil =>
          have ht : tailsAt k (([], v) :: ws) = tailsAt k ws := rfl
          rw [ht, sizeW_cons]
          omega
      | cons k₀ rest =>
          have ht : tailsAt k ((k₀ :: rest, v) :: ws) =
              if k₀ = k then (rest, v) :: tailsAt k ws else tailsAt k ws := rfl
          rw [ht, sizeW_cons]
          by_cases hk : k₀ = k
          · rw [if_pos hk, sizeW_cons, List.length_cons]
            simp only [List.length_cons]
            omega
          · rw [if_neg hk]
            omega

/-- Every per-key chain of a write sequence is either empty (identity), a
constant, or the lifting of a write sequence one level down. -/
theorem chainW_cases (ts : List Write) :
    ts = [] ∨
    (∃ c, ∀ x, chainW ts x = some c) ∨
    (∃ ws', (∀ w ∈ ws', w.1 ≠ []) ∧ sizeW ws' ≤ sizeW ts ∧
      ∀ x, chainW ts x = some (CData.dict (W ws' (asDictO x)))) := by
  induction ts with
  | nil => exact Or.inl rfl
  | cons t rest ih =>
      obtain ⟨p, v⟩ := t
      refine Or.inr ?_
      cases p with
      | nil =>
          have hstep : ∀ x, stepF [] v x = CData.leaf v := fun x => rfl
          rcases ih with hnil | ⟨c, hc⟩ | ⟨ws', hws'ne, hsz, hws'⟩
          · subst hnil
            exact Or.inl ⟨CData.leaf v, fun x => by
              rw [chainW_cons, hstep, chainW_nil]⟩
          · exact Or.inl ⟨c, fun x => by rw [chainW_cons, hstep, hc]⟩
          · refine Or.inl ⟨CData.dict (W ws' []), fun x => ?_⟩
            rw [chainW_cons, hstep, hws']
            rfl
      | cons k₀ p₀ =>
          have hstep : ∀ x, stepF (k₀ :: p₀) v x =
              CData.dict (setPath (asDictO x) (k₀ :: p₀) v) := fun x => rfl
          rcases ih with hnil | ⟨c, hc⟩ | ⟨ws', hws'ne, hsz, hws'⟩
          · subst hnil
            refine Or.inr ⟨[(k₀ :: p₀, v)], ?_, ?_, fun x => ?_⟩
            · intro w hw
              rw [List.mem_singleton] at hw
              subst hw
              simp
            · exact le_rfl
            · rw [chainW_cons, hstep, chainW_nil]
              rfl
          · exact Or.inl ⟨c, fun x => by rw [chainW_cons, hstep, hc]⟩
          · refine Or.inr ⟨(k₀ :: p₀, v) :: ws', ?_, ?_, fun x => ?_⟩
            · intro w hw
              rcases List.mem_cons.mp hw with h | h
              · subst h; simp
              · exact hws'ne w h
            · rw [sizeW_cons, sizeW_cons]
              omega
            · rw [chainW_cons, hstep, hws']
              have hred : asDictO (some (CData.dict (setPath (asDictO x) (k₀ :: p₀) v))) =
                  setPath (asDictO x) (k₀ :: p₀) v := rfl
              rw [hred, W_cons]
              rfl

theorem filterUntouched_idem (ws : List Write) (l : AList) :
    filterUntouched ws (filterUntouched ws l) = filterUntouched ws l := by
  induction l with
  | nil => rfl
  | cons e rest ih =>
      rw [filterUntouched_cons]
      by_cases h : e.1 ∈ headsOf ws
      · rw [if_pos h, ih]
      · rw [if_neg h, filterUntouched_cons, if_neg h, ih]

theorem filterUntouched_of_touched (ws : List Write) (l : AList)
    (h : ∀ e ∈ l, e.1 ∈ headsOf ws) : filterUntouched ws l = [] := by
  induction l with
  | nil => rfl
  | cons e rest ih =>
      rw [filterUntouched_cons, if_pos (h e (List.mem_cons_self e rest))]
      exact ih (fun e' he' => h e' (List.mem_cons_of_mem _ he'))

theorem W_idem_aux : ∀ n (ws : List Write), sizeW ws ≤ n →
    (∀ w ∈ ws, w.1 ≠ []) → ∀ l, W ws (W ws l) = W ws l := by
  intro n
  induction n with
  | zero =>
      intro ws hsz hne l
      cases ws with
      | nil => rfl
      | cons w ws =>
          obtain ⟨p, v⟩ := w
          have hp : p ≠ [] := hne (p, v) (List.mem_cons_self _ _)
          rw [sizeW_cons] at hsz
          have : p.length ≥ 1 := List.length_pos.mpr hp
          omega
  | succ n ihn =>
      intro ws hsz hne l
      have huntouched : filterUntouched ws (W ws l) = filterUntouched ws l := by
        have htail : filterUntouched ws
            ((lastKeys ws).map (fun k => (k, entryVal ws l k))) = [] := by
          apply filterUntouched_of_touched
          intro e he
          rw [List.mem_map] at he
          obtain ⟨a, ha, rfl⟩ := he
          exact (mem_lastKeys ws a).mp ha
        rw [W_nf ws hne l, filterUntouched_append, filterUntouched_idem, htail,
          List.append_nil]
      have hmap : (lastKeys ws).map (fun k => (k, entryVal ws (W ws l) k)) =
          (lastKeys ws).map (fun k => (k, entryVal ws l k)) := by
        apply List.map_congr_left
        intro a _
        show (a, entryVal ws (W ws l) a) = (a, entryVal ws l a)
        congr 1
        unfold entryVal
        rw [lookupA_W]
        rcases chainW_cases (tailsAt a ws) with hnil | ⟨c, hc⟩ | ⟨ws', hws'ne, hsz', hws'⟩
        · rw [hnil]
          rfl
        · rw [hc, hc]
        · have hts : tailsAt a ws ≠ [] := by
            intro hcon
            have h0 := hws' none
            rw [hcon] at h0
            exact Option.noConfusion h0
          have hlen : (tailsAt a ws).length ≥ 1 :=
            List.length_pos.mpr hts
          have hszt := sizeW_tailsAt_add_length a ws
          have hsz'' : sizeW ws' ≤ n := by omega
          rw [hws', hws']
          have hred : asDictO (some (CData.dict (W ws' (asDictO (lookupA l a))))) =
              W ws' (asDictO (lookupA l a)) := rfl
          rw [hred, ihn ws' hsz'' hws'ne]
      calc W ws (W ws l)
          = filterUntouched ws (W ws l) ++
              (lastKeys ws).map (fun k => (k, entryVal ws (W ws l) k)) :=
            W_nf ws hne (W ws l)
        _ = filterUntouched ws l ++
              (lastKeys ws).map (fun k => (k, entryVal ws l k)) := by
            rw [huntouched, hmap]
        _ = W ws l := (W_nf ws hne l).symm

/-- Replaying any write sequence (with nonempty key paths) on its own
output changes nothing. -/
theorem W_idem (ws : List Write) (hne : ∀ w ∈ ws, w.1 ≠ []) (l : AList) :
    W ws (W ws l) = W ws l :=
  W_idem_aux (sizeW ws) ws le_rfl hne l

theorem splitChAux_ne_nil (sep : Char) (cs acc : List Char) :
    splitChAux sep cs acc ≠ [] := by
  induction cs generalizing acc with
  | nil => simp [splitChAux]
  | cons c cs ih =>
      rw [splitChAux]
      by_cases h : c = sep
      · rw [if_pos h]
        simp
      · rw [if_neg h]
        exact ih _

theorem splitColon_ne_nil (s : String) : splitColon s ≠ [] :=
  splitChAux_ne_nil ':' s.toList []

theorem foldl_fun_congr {α β : Type} (l : List α) (f g : β → α → β) (b : β)
    (h : ∀ x ∈ l, ∀ acc, f acc x = g acc x) : l.foldl f b = l.foldl g b := by
  induction l generalizing b with
  | nil => rfl
  | cons a rest ih =>
      rw [List.foldl_cons, List.foldl_cons, h a (List.mem_cons_self a rest) b]
      exact ih _ (fun x hx acc => h x (List.mem_cons_of_mem _ hx) acc)

theorem write_properties_eq_W (st : MHState) (cd : AList) :
    write_properties st cd = W (actualWrites st) cd := by
  unfold write_properties actualWrites W
  rw [List.foldl_cons, List.foldl_append, List.foldl_map, List.foldl_map]
  refine foldl_fun_congr st.proxies _ _ _ ?_
  intro p _ acc
  simp only [proxWrite, app1, setCustomDataByKey]
  by_cases hc : defaultedType p = "clothes" ∨ defaultedType p = "proxymeshes"
  · rw [if_pos hc, if_pos hc]
  · rw [if_neg hc, if_neg hc]

theorem actualWrites_path_ne_nil (st : MHState) :
    ∀ w ∈ actualWrites st, w.1 ≠ [] := by
  intro w hw
  unfold actualWrites at hw
  rcases List.mem_cons.mp hw with h | h
  · subst h
    exact splitColon_ne_nil _
  · rcases List.mem_append.mp h with h | h
    · rw [List.mem_map] at h
      obtain ⟨m, _, rfl⟩ := h
      exact splitColon_ne_nil _
    · rw [List.mem_map] at h
      obtain ⟨p, _, rfl⟩ := h
      unfold proxWrite
      by_cases hc : defaultedType p = "clothes" ∨ defaultedType p = "proxymeshes"
      · rw [if_pos hc]
        exact splitColon_ne_nil _
      · rw [if_neg hc]
        exact splitColon_ne_nil _

/-- C5: `write_properties` is idempotent — re-running it with unchanged
provider state leaves the prim's custom data exactly as after the first
call. -/
theorem write_properties_idempotent (st : MHState) (cd : AList) :
    write_properties st (write_properties st cd) = write_properties st cd := by
  simp only [write_properties_eq_W]
  exact W_idem (actualWrites st) (actualWrites_path_ne_nil st) cd

theorem eraseKey_of_fresh (l : AList) (k : String) (h : ∀ e ∈ l, e.1 ≠ k) :
    eraseKey k l = l := by
  induction l with
  | nil => rfl
  | cons e rest ih =>
      rw [eraseKey_cons, if_neg (h e (List.mem_cons_self _ _)),
        ih (fun e' he' => h e' (List.mem_cons_of_mem _ he'))]

/-- Writing a block of fresh single-segment keys appends them in order. -/
theorem W_singles_append {α : Type} (l : List α) (key : α → String) (val : α → Val)
    (acc : AList) (hnd : (l.map key).Nodup)
    (hfresh : ∀ a ∈ l, ∀ e ∈ acc, e.1 ≠ key a) :
    W (l.map (fun a => ([key a], val a))) acc =
      acc ++ l.map (fun a => (key a, CData.leaf (val a))) := by
  induction l generalizing acc with
  | nil => simp
  | cons a rest ih =>
      rw [List.map_cons, W_cons]
      have happ : app1 acc ([key a], val a) = acc ++ [(key a, CData.leaf (val a))] := by
        have h1 : app1 acc ([key a], val a) =
            eraseKey (key a) acc ++ [(key a, CData.leaf (val a))] := rfl
        rw [h1, eraseKey_of_fresh acc (key a)
          (fun e he => hfresh a (List.mem_cons_self _ _) e he)]
      rw [List.map_cons, List.nodup_cons] at hnd
      have hfresh' : ∀ b ∈ rest, ∀ e ∈ acc ++ [(key a, CData.leaf (val a))],
          e.1 ≠ key b := by
        intro b hb e he
        rcases List.mem_append.mp he with h1 | h1
        · exact hfresh b (List.mem_cons_of_mem _ hb) e h1
        · rw [List.mem_singleton] at h1
          subst h1
          intro hc
          have hc' : key a = key b := hc
          exact hnd.1 (hc' ▸ List.mem_map_of_mem key hb)
      rw [happ, ih _ hnd.2 hfresh', List.map_cons, List.append_assoc,
        List.singleton_append]

/-- A nonempty chain of dictionary-level writes is the lifted write
sequence one level down. -/
theorem chainW_all_nonempty (ts : List Write) (h : ∀ t ∈ ts, t.1 ≠ [])
    (hne : ts ≠ []) : ∀ x, chainW ts x = some (CData.dict (W ts (asDictO x))) := by
  induction ts with
  | nil => exact absurd rfl hne
  | cons t rest ih =>
      intro x
      obtain ⟨p, v⟩ := t
      have hp : p ≠ [] := h (p, v) (List.mem_cons_self _ _)
      obtain ⟨k, ps, rfl⟩ := List.exists_cons_of_ne_nil hp
      rw [chainW_cons]
      have hstep : stepF (k :: ps) v x =
          CData.dict (setPath (asDictO x) (k :: ps) v) := rfl
      rw [hstep]
      by_cases hr : rest = []
      · subst hr
        rfl
      · rw [ih (fun t ht => h t (List.mem_cons_of_mem _ ht)) hr]
        have hred : asDictO (some (CData.dict (setPath (asDictO x) (k :: ps) v))) =
            setPath (asDictO x) (k :: ps) v := rfl
        rw [hred, W_cons]
        rfl

/-- With keys made distinct by an injective image, filtering for one
element's image keeps exactly that element. -/
theorem filter_eq_singleton_of_nodup {α β : Type} [DecidableEq β] (l : List α)
    (g : α → β) (pr : α → Bool) (hnd : (l.map g).Nodup) (a : α) (ha : a ∈ l)
    (hiff : ∀ b ∈ l, pr b = true ↔ g b = g a) :
    l.filter pr = [a] := by
  induction l with
  | nil => cases ha
  | cons x rest ih =>
      rw [List.map_cons, List.nodup_cons] at hnd
      rcases List.mem_cons.mp ha with heq | hmem
      · subst heq
        rw [List.filter_cons,
          if_pos ((hiff a (List.mem_cons_self _ _)).mpr rfl)]
        have hrest : rest.filter pr = [] := by
          apply List.eq_nil_iff_forall_not_mem.mpr
          intro b hb
          have hb1 := List.mem_filter.mp hb
          have hgb := (hiff b (List.mem_cons_of_mem _ hb1.1)).mp hb1.2
          exact hnd.1 (hgb ▸ List.mem_map_of_mem g hb1.1)
        rw [hrest]
      · have hga : g x ≠ g a := by
          intro hc
          exact hnd.1 (hc ▸ List.mem_map_of_mem g hmem)
        rw [List.filter_cons,
          if_neg (fun hc => hga ((hiff x (List.mem_cons_self _ _)).mp hc))]
        exact ih hnd.2 hmem
          (fun b hb => hiff b (List.mem_cons_of_mem _ hb))

/-- Tails of a block of single-segment writes at a key: the writes whose
key matches. -/
theorem tailsAt_map_singles {α : Type} (k : String) (l : List α)
    (key : α → String) (val : α → Val) :
    tailsAt k (l.map (fun a => ([key a], val a))) =
      (l.filter (fun a => key a = k)).map (fun a => (([] : List String), val a)) := by
  induction l with
  | nil => rfl
  | cons a rest ih =>
      rw [List.map_cons, List.filter_cons]
      have ht : tailsAt k (([key a], val a) :: rest.map (fun a => ([key a], val a))) =
          if key a = k then ([], val a) :: tailsAt k (rest.map (fun a => ([key a], val a)))
          else tailsAt k (rest.map (fun a => ([key a], val a))) := rfl
      rw [ht]
      by_cases h : key a = k
      · rw [if_pos h, if_pos (by simp [h]), List.map_cons, ih]
      · rw [if_neg h, if_neg (by simp [h]), ih]

theorem tailsAt_mapMod (k : String) (mods : List Modifier)
    (hs : ∀ m ∈ mods,
      splitColon ("Modifiers:" ++ m.fullName) = ["Modifiers", m.fullName]) :
    tailsAt k (mods.map modWrite) =
      if k = "Modifiers" then mods.map modTail else [] := by
  induction mods with
  | nil => by_cases h : k = "Modifiers" <;> simp [h]
  | cons m rest ih =>
      have hm : modWrite m = (["Modifiers", m.fullName], Val.vnum m.value) := by
        unfold modWrite
        rw [hs m (List.mem_cons_self _ _)]
      rw [List.map_cons, hm]
      have ht : tailsAt k ((["Modifiers", m.fullName], Val.vnum m.value) ::
            rest.map modWrite) =
          if "Modifiers" = k then
            ([m.fullName], Val.vnum m.value) :: tailsAt k (rest.map modWrite)
          else tailsAt k (rest.map modWrite) := rfl
      rw [ht, ih (fun m' h' => hs m' (List.mem_cons_of_mem _ h'))]
      by_cases h : k = "Modifiers"
      · subst h
        rw [if_pos rfl, if_pos rfl, if_pos rfl, List.map_cons]
        rfl
      · rw [if_neg (fun hc => h hc.symm), if_neg h, if_neg h]

theorem tailsAt_mapProx (k : String) (pl : List Proxy)
    (hs : ∀ p ∈ pl,
      splitColon ("Proxies:" ++ defaultedType p ++ ":" ++ p.name) =
          ["Proxies", defaultedType p, p.name] ∧
        splitColon ("Proxies:" ++ defaultedType p) = ["Proxies", defaultedType p]) :
    tailsAt k (pl.map proxWrite) =
      if k = "Proxies" then pl.map proxTail else [] := by
  induction pl with
  | nil => by_cases h : k = "Proxies" <;> simp [h]
  | cons p rest ih =>
      have hrest := ih (fun p' h' => hs p' (List.mem_cons_of_mem _ h'))
      rw [List.map_cons]
      by_cases hcl : clothesLike p
      · have hm : proxWrite p =
            (["Proxies", defaultedType p, p.name], Val.vstr p.file) := by
          unfold proxWrite
          rw [if_pos hcl, (hs p (List.mem_cons_self _ _)).1]
        rw [hm]
        have ht : tailsAt k ((["Proxies", defaultedType p, p.name], Val.vstr p.file) ::
              rest.map proxWrite) =
            if "Proxies" = k then
              ([defaultedType p, p.name], Val.vstr p.file) :: tailsAt k (rest.map proxWrite)
            else tailsAt k (rest.map proxWrite) := rfl
        rw [ht, hrest]
        by_cases h : k = "Proxies"
        · subst h
          rw [if_pos rfl, if_pos rfl, if_pos rfl, List.map_cons]
          have hpt : proxTail p = ([defaultedType p, p.name], Val.vstr p.file) := by
            unfold proxTail
            rw [if_pos hcl]
          rw [hpt]
        · rw [if_neg (fun hc => h hc.symm), if_neg h, if_neg h]
      · have hm : proxWrite p = (["Proxies", defaultedType p], Val.vstr p.file) := by
          unfold proxWrite
          rw [if_neg hcl, (hs p (List.mem_cons_self _ _)).2]
        rw [hm]
        have ht : tailsAt k ((["Proxies", defaultedType p], Val.vstr p.file) ::
              rest.map proxWrite) =
            if "Proxies" = k then
              ([defaultedType p], Val.vstr p.file) :: tailsAt k (rest.map proxWrite)
            else tailsAt k (rest.map proxWrite) := rfl
        rw [ht, hrest]
        by_cases h : k = "Proxies"
        · subst h
          rw [if_pos rfl, if_pos rfl, if_pos rfl, List.map_cons]
          have hpt : proxTail p = ([defaultedType p], Val.vstr p.file) := by
            unfold proxTail
            rw [if_neg hcl]
          rw [hpt]
        · rw [if_neg (fun hc => h hc.symm), if_neg h, if_neg h]

theorem tailsAt_actual (st : MHState) (h : SplitOk st) (k : String) :
    tailsAt k (actualWrites st) =
      (if k = "human" then [(([] : List String), Val.vbool true)] else []) ++
      ((if k = "Modifiers" then st.modifiers.map modTail else []) ++
       (if k = "Proxies" then st.proxies.map proxTail else [])) := by
  have hA : actualWrites st = (["human"], Val.vbool true) ::
      (st.modifiers.map modWrite ++ st.proxies.map proxWrite) := by
    unfold actualWrites
    have hsp : splitColon "human" = ["human"] := rfl
    rw [hsp]
  rw [hA]
  have ht : tailsAt k ((["human"], Val.vbool true) ::
        (st.modifiers.map modWrite ++ st.proxies.map proxWrite)) =
      if "human" = k then
        ([], Val.vbool true) ::
          tailsAt k (st.modifiers.map modWrite ++ st.proxies.map proxWrite)
      else tailsAt k (st.modifiers.map modWrite ++ st.proxies.map proxWrite) := rfl
  rw [ht, tailsAt_append, tailsAt_mapMod k st.modifiers h.1,
    tailsAt_mapProx k st.proxies h.2]
  by_cases h1 : k = "human"
  · subst h1
    rw [if_pos rfl, if_pos rfl, if_neg (by decide), if_neg (by decide)]
    rfl
  · rw [if_neg (fun hc => h1 hc.symm), if_neg h1, List.nil_append]

theorem lookupA_write_properties (st : MHState) (cd : AList) (k : String) :
    lookupA (write_properties st cd) k =
      chainW (tailsAt k (actualWrites st)) (lookupA cd k) := by
  rw [write_properties_eq_W, lookupA_W]

theorem wp_human (st : MHState) (cd : AList) (h : SplitOk st) :
    lookupA (write_properties st cd) "human" = some (CData.leaf (Val.vbool true)) := by
  rw [lookupA_write_properties, tailsAt_actual st h, if_pos rfl,
    if_neg (by decide), if_neg (by decide)]
  rfl

theorem wp_modifiers_entry (st : MHState) (cd : AList) (h : SplitOk st)
    (hm : st.modifiers ≠ []) :
    lookupA (write_properties st cd) "Modifiers" =
      some (CData.dict (W (st.modifiers.map modTail)
        (asDictO (lookupA cd "Modifiers")))) := by
  rw [lookupA_write_properties, tailsAt_actual st h, if_neg (by decide),
    if_pos rfl, if_neg (by decide), List.nil_append, List.append_nil]
  apply chainW_all_nonempty
  · intro t ht
    rw [List.mem_map] at ht
    obtain ⟨m, _, rfl⟩ := ht
    simp [modTail]
  · intro hc
    exact hm (List.map_eq_nil_iff.mp hc)

theorem wp_proxies_entry (st : MHState) (cd : AList) (h : SplitOk st)
    (hp : st.proxies ≠ []) :
    lookupA (write_properties st cd) "Proxies" =
      some (CData.dict (W (st.proxies.map proxTail)
        (asDictO (lookupA cd "Proxies")))) := by
  rw [lookupA_write_properties, tailsAt_actual st h, if_neg (by decide),
    if_neg (by decide), if_pos rfl, List.nil_append, List.nil_append]
  apply chainW_all_nonempty
  · intro t ht
    rw [List.mem_map] at ht
    obtain ⟨p, _, rfl⟩ := ht
    unfold proxTail
    by_cases hcl : clothesLike p
    · rw [if_pos hcl]
      simp
    · rw [if_neg hcl]
      simp
  · intro hc
    exact hp (List.map_eq_nil_iff.mp hc)

@[simp] theorem asDictO_dict (d : AList) : asDictO (some (CData.dict d)) = d := rfl

theorem tailsAt_mapProxTail (k : String) (pl : List Proxy) :
    tailsAt k (pl.map proxTail) =
      (pl.filter (fun q => defaultedType q = k)).map innerTail := by
  induction pl with
  | nil => rfl
  | cons q rest ih =>
      rw [List.map_cons, List.filter_cons]
      by_cases hcq : clothesLike q
      · have hq : proxTail q = ([defaultedType q, q.name], Val.vstr q.file) := by
          unfold proxTail
          rw [if_pos hcq]
        rw [hq]
        have ht : tailsAt k (([defaultedType q, q.name], Val.vstr q.file) ::
              rest.map proxTail) =
            if defaultedType q = k then
              ([q.name], Val.vstr q.file) :: tailsAt k (rest.map proxTail)
            else tailsAt k (rest.map proxTail) := rfl
        rw [ht]
        by_cases h : defaultedType q = k
        · rw [if_pos h, if_pos (by simp [h]), List.map_cons, ih]
          have hi : innerTail q = ([q.name], Val.vstr q.file) := by
            unfold innerTail
            rw [if_pos hcq]
          rw [hi]
        · rw [if_neg h, if_neg (by simp [h]), ih]
      · have hq : proxTail q = ([defaultedType q], Val.vstr q.file) := by
          unfold proxTail
          rw [if_neg hcq]
        rw [hq]
        have ht : tailsAt k (([defaultedType q], Val.vstr q.file) ::
              rest.map proxTail) =
            if defaultedType q = k then
              ([], Val.vstr q.file) :: tailsAt k (rest.map proxTail)
            else tailsAt k (rest.map proxTail) := rfl
        rw [ht]
        by_cases h : defaultedType q = k
        · rw [if_pos h, if_pos (by simp [h]), List.map_cons, ih]
          have hi : innerTail q = ([], Val.vstr q.file) := by
            unfold innerTail
            rw [if_neg hcq]
          rw [hi]
        · rw [if_neg h, if_neg (by simp [h]), ih]

theorem wp_modifier_value (st : MHState) (cd : AList) (hsplit : SplitOk st)
    (hndm : (st.modifiers.map Modifier.fullName).Nodup)
    (m : Modifier) (hm : m ∈ st.modifiers) :
    getPath (write_properties st cd) ["Modifiers", m.fullName] =
      some (CData.leaf (Val.vnum m.value)) := by
  have hg : getPath (write_properties st cd) ["Modifiers", m.fullName] =
      lookupA (asDictO (lookupA (write_properties st cd) "Modifiers")) m.fullName := rfl
  rw [hg, wp_modifiers_entry st cd hsplit (List.ne_nil_of_mem hm), asDictO_dict,
    lookupA_W]
  have hmm : st.modifiers.map modTail =
      st.modifiers.map (fun m' => ([m'.fullName], Val.vnum m'.value)) := rfl
  rw [hmm, tailsAt_map_singles]
  have hfil : st.modifiers.filter (fun m' => m'.fullName = m.fullName) = [m] :=
    filter_eq_singleton_of_nodup st.modifiers Modifier.fullName _ hndm m hm
      (fun b _ => by simp)
  rw [hfil]
  rfl

theorem wp_proxy_value (st : MHState) (cd : AList) (hsplit : SplitOk st)
    (hndp : (st.proxies.map keyPathOf).Nodup)
    (p : Proxy) (hp : p ∈ st.proxies) :
    getPath (write_properties st cd) (keyPathOf p) =
      some (CData.leaf (Val.vstr p.file)) := by
  by_cases hcl : clothesLike p
  · have hkp : keyPathOf p = ["Proxies", defaultedType p, p.name] := by
      unfold keyPathOf
      rw [if_pos hcl]
    rw [hkp]
    have hg : getPath (write_properties st cd) ["Proxies", defaultedType p, p.name] =
        lookupA (asDictO (lookupA (asDictO
          (lookupA (write_properties st cd) "Proxies")) (defaultedType p))) p.name := rfl
    rw [hg, wp_proxies_entry st cd hsplit (List.ne_nil_of_mem hp), asDictO_dict,
      lookupA_W, tailsAt_mapProxTail]
    have hFcl : ∀ q ∈ st.proxies.filter
        (fun q => defaultedType q = defaultedType p), clothesLike q := by
      intro q hq
      have hq1 := List.mem_filter.mp hq
      have hdt : defaultedType q = defaultedType p := by
        simpa using hq1.2
      show defaultedType q = "clothes" ∨ defaultedType q = "proxymeshes"
      rw [hdt]
      exact hcl
    have hFmap : (st.proxies.filter
          (fun q => defaultedType q = defaultedType p)).map innerTail =
        (st.proxies.filter (fun q => defaultedType q = defaultedType p)).map
          (fun q => ([q.name], Val.vstr q.file)) := by
      apply List.map_congr_left
      intro q hq
      unfold innerTail
      rw [if_pos (hFcl q hq)]
    rw [hFmap]
    have hpF : p ∈ st.proxies.filter (fun q => defaultedType q = defaultedType p) :=
      List.mem_filter.mpr ⟨hp, by simp⟩
    rw [chainW_all_nonempty _ (by
        intro t ht
        rw [List.mem_map] at ht
        obtain ⟨q, _, rfl⟩ := ht
        simp)
      (by
        intro hc
        rw [List.map_eq_nil_iff] at hc
        rw [hc] at hpF
        cases hpF),
      asDictO_dict, lookupA_W, tailsAt_map_singles]
    have hff : ((st.proxies.filter (fun q => defaultedType q = defaultedType p)).filter
        (fun q => q.name = p.name)).map
          (fun q => (([] : List String), Val.vstr q.file)) =
        [(([] : List String), Val.vstr p.file)] := by
      rw [List.filter_filter]
      have hsingle : st.proxies.filter
          (fun q => decide (q.name = p.name) &&
            decide (defaultedType q = defaultedType p)) = [p] := by
        apply filter_eq_singleton_of_nodup st.proxies keyPathOf _ hndp p hp
        intro b _
        constructor
        · intro hb
          rw [Bool.and_eq_true, decide_eq_true_eq, decide_eq_true_eq] at hb
          obtain ⟨h2, h1⟩ := hb
          have hclb : clothesLike b := by
            show defaultedType b = "clothes" ∨ defaultedType b = "proxymeshes"
            rw [h1]
            exact hcl
          unfold keyPathOf
          rw [if_pos hclb, if_pos hcl, h1, h2]
        · intro hkpb
          unfold keyPathOf at hkpb
          rw [if_pos hcl] at hkpb
          by_cases hclb : clothesLike b
          · rw [if_pos hclb] at hkpb
            simp only [List.cons.injEq, and_true] at hkpb
            simp [hkpb.2.1, hkpb.2.2]
          · rw [if_neg hclb] at hkpb
            simp at hkpb
      rw [hsingle]
      rfl
    rw [hff]
    rfl
  · have hkp : keyPathOf p = ["Proxies", defaultedType p] := by
      unfold keyPathOf
      rw [if_neg hcl]
    rw [hkp]
    have hg : getPath (write_properties st cd) ["Proxies", defaultedType p] =
        lookupA (asDictO
          (lookupA (write_properties st cd) "Proxies")) (defaultedType p) := rfl
    rw [hg, wp_proxies_entry st cd hsplit (List.ne_nil_of_mem hp), asDictO_dict,
      lookupA_W, tailsAt_mapProxTail]
    have hsingle : st.proxies.filter
        (fun q => defaultedType q = defaultedType p) = [p] := by
      apply filter_eq_singleton_of_nodup st.proxies keyPathOf _ hndp p hp
      intro b _
      constructor
      · intro hb
        rw [decide_eq_true_eq] at hb
        have hclb : ¬ clothesLike b := by
          intro hc
          apply hcl
          show defaultedType p = "clothes" ∨ defaultedType p = "proxymeshes"
          rw [← hb]
          exact hc
        unfold keyPathOf
        rw [if_neg hclb, if_neg hcl, hb]
      · intro hkpb
        unfold keyPathOf at hkpb
        rw [if_neg hcl] at hkpb
        by_cases hclb : clothesLike b
        · rw [if_pos hclb] at hkpb
          simp at hkpb
        · rw [if_neg hclb] at hkpb
          simp only [List.cons.injEq, and_true] at hkpb
          simp [hkpb.2]
    rw [hsingle]
    have hin : innerTail p = ([], Val.vstr p.file) := by
      unfold innerTail
      rw [if_neg hcl]
    rw [List.map_singleton, hin]
    rfl

/-- C1: after `write_properties` runs, the prim's custom data contains
`human = true`, `Modifiers:<fullName> = value` for every modifier in the
provider, and every proxy's file at `Proxies:<type>:<name>` (for the
"clothes"/"proxymeshes" types) or `Proxies:<type>` (otherwise), with an
unset/empty proxy type defaulted to "proxymeshes" before routing; and on
the spec's "Greta" example over a fresh prim the resulting custom data is
exactly `{human: true, "Modifiers:head/head-age-old": 0.7,
"Proxies:clothes:tshirt": "tshirt.mhclo"}`.  Hypotheses: the names split
into the expected colon-delimited segments and the written key paths are
pairwise distinct (both guaranteed by provider state and checkable by
evaluation). -/
theorem c1_write_properties_custom_data (st : MHState) (cd : AList)
    (hsplit : SplitOk st)
    (hndm : (st.modifiers.map Modifier.fullName).Nodup)
    (hndp : (st.proxies.map keyPathOf).Nodup) :
    getPath (write_properties st cd) ["human"] =
        some (CData.leaf (Val.vbool true)) ∧
    (∀ m ∈ st.modifiers,
      getPath (write_properties st cd) ["Modifiers", m.fullName] =
        some (CData.leaf (Val.vnum m.value))) ∧
    (∀ p ∈ st.proxies,
      getPath (write_properties st cd) (keyPathOf p) =
        some (CData.leaf (Val.vstr p.file))) ∧
    write_properties gretaState [] = gretaExpected := by
  refine ⟨?_, ?_, ?_, ?_⟩
  · have hg : getPath (write_properties st cd) ["human"] =
        lookupA (write_properties st cd) "human" := rfl
    rw [hg, wp_human st cd hsplit]
  · intro m hm
    exact wp_modifier_value st cd hsplit hndm m hm
  · intro p hp
    exact wp_proxy_value st cd hsplit hndp p hp
  · rfl

/-- Witness for C1 at the Greta example state over a fresh prim. -/
theorem c1_write_properties_custom_data_witness :
    getPath (write_properties gretaState []) ["Modifiers", "head/head-age-old"] =
        some (CData.leaf (Val.vnum (7/10))) ∧
    getPath (write_properties gretaState []) ["Proxies", "clothes", "tshirt"] =
        some (CData.leaf (Val.vstr "tshirt.mhclo")) := by
  have h := c1_write_properties_custom_data gretaState [] (by decide) (by decide)
    (by decide)
  refine ⟨?_, ?_⟩
  · exact h.2.1 { fullName := "head/head-age-old", value := 7/10 }
      (List.mem_singleton.mpr rfl)
  · exact h.2.2.1 { name := "tshirt", type := "clothes", file := "tshirt.mhclo" }
      (List.mem_singleton.mpr rfl)

/-! ### The import path: `set_prim` -/

theorem lookupMod_setModValue_none (mods : List Modifier) (n : String) (q : ℚ)
    (n' : String) :
    (lookupMod (setModValue mods n q) n' = none ↔ lookupMod mods n' = none) := by
  induction mods with
  | nil => exact Iff.rfl
  | cons m rest ih =>
      unfold setModValue
      by_cases hfn : m.fullName = n
      · rw [if_pos hfn]
        unfold lookupMod
        by_cases h' : m.fullName = n'
        · simp [h']
        · simp [h']
      · rw [if_neg hfn]
        unfold lookupMod
        by_cases h' : m.fullName = n'
        · simp [h']
        · simp [h', ih]

theorem setPrimMods_flags (ms : List (String × CData)) :
    ∀ mods, ∀ a ∈ (setPrimMods mods ms).2, a.2.2 = false := by
  induction ms with
  | nil =>
      intro mods a ha
      cases ha
  | cons e rest ih =>
      intro mods a ha
      obtain ⟨n, cv⟩ := e
      cases cv with
      | leaf v =>
          cases v with
          | vnum q =>
              rw [show setPrimMods mods ((n, CData.leaf (Val.vnum q)) :: rest) =
                  (match lookupMod mods n with
                   | none => (Except.error ("KeyError: " ++ n), [])
                   | some _ =>
                       let r := setPrimMods (setModValue mods n q) rest
                       (r.1, (n, q, false) :: r.2)) from rfl] at ha
              cases hl : lookupMod mods n with
              | none =>
                  rw [hl] at ha
                  cases ha
              | some _ =>
                  rw [hl] at ha
                  rcases List.mem_cons.mp ha with h | h
                  · subst h
                    rfl
                  · exact ih (setModValue mods n q) a h
          | vbool b => cases ha
          | vstr s => cases ha
      | dict d => cases ha

theorem setPrimMods_err (ms : List (String × CData)) :
    ∀ mods, (∀ e ∈ ms, ∃ q, e.2 = CData.leaf (Val.vnum q)) →
    (∃ e ∈ ms, lookupMod mods e.1 = none) →
    ∃ er, (setPrimMods mods ms).1 = Except.error er := by
  induction ms with
  | nil =>
      rintro mods _ ⟨e, he, _⟩
      cases he
  | cons e rest ih =>
      rintro mods hwf ⟨e', he', hunk⟩
      obtain ⟨n, cv⟩ := e
      obtain ⟨q, hq⟩ := hwf (n, cv) (List.mem_cons_self _ _)
      have hq' : cv = CData.leaf (Val.vnum q) := hq
      subst hq'
      rw [show setPrimMods mods ((n, CData.leaf (Val.vnum q)) :: rest) =
          (match lookupMod mods n with
           | none => (Except.error ("KeyError: " ++ n), [])
           | some _ =>
               let r := setPrimMods (setModValue mods n q) rest
               (r.1, (n, q, false) :: r.2)) from rfl]
      cases hl : lookupMod mods n with
      | none => exact ⟨"KeyError: " ++ n, rfl⟩
      | some qq =>
          rcases List.mem_cons.mp he' with h | h
          · subst h
            rw [hl] at hunk
            cases hunk
          · obtain ⟨er, her⟩ := ih (setModValue mods n q)
              (fun x hx => hwf x (List.mem_cons_of_mem _ hx))
              ⟨e', h, (lookupMod_setModValue_none mods n q e'.1).mpr hunk⟩
            exact ⟨er, her⟩

theorem setPrimMods_map {α : Type} (l : List α) (key : α → String) (val : α → ℚ) :
    ∀ mods, (∀ a ∈ l, lookupMod mods (key a) ≠ none) →
    setPrimMods mods (l.map (fun a => (key a, CData.leaf (Val.vnum (val a))))) =
      (Except.ok (l.foldl (fun acc a => setModValue acc (key a) (val a)) mods),
       l.map (fun a => (key a, val a, false))) := by
  induction l with
  | nil => intro mods _; rfl
  | cons a rest ih =>
      intro mods hall
      rw [List.map_cons]
      rw [show setPrimMods mods ((key a, CData.leaf (Val.vnum (val a))) ::
            rest.map (fun a => (key a, CData.leaf (Val.vnum (val a))))) =
          (match lookupMod mods (key a) with
           | none => (Except.error ("KeyError: " ++ key a), [])
           | some _ =>
               let r := setPrimMods (setModValue mods (key a) (val a))
                 (rest.map (fun a => (key a, CData.leaf (Val.vnum (val a)))))
               (r.1, (key a, val a, false) :: r.2)) from rfl]
      cases hl : lookupMod mods (key a) with
      | none => exact absurd hl (hall a (List.mem_cons_self _ _))
      | some q =>
          have hall' : ∀ b ∈ rest, lookupMod (setModValue mods (key a) (val a))
              (key b) ≠ none := by
            intro b hb hc
            exact hall b (List.mem_cons_of_mem _ hb)
              ((lookupMod_setModValue_none mods (key a) (val a) (key b)).mp hc)
          rw [ih (setModValue mods (key a) (val a)) hall']
          rw [List.foldl_cons, List.map_cons]

/-- C10: with no "Modifiers" key in the imported custom data, `set_prim`
raises (Python iterates `.items()` of `None`) before any modifier set,
proxy registration or target re-application has happened. -/
theorem c10_set_prim_missing_modifiers (mods : List Modifier) (cd : AList)
    (h : lookupA cd "Modifiers" = none) :
    (∃ e, (set_prim mods cd).1 = Except.error e) ∧
    (set_prim mods cd).2.modSets = [] ∧
    (set_prim mods cd).2.proxyLoads = [] ∧
    (set_prim mods cd).2.applyCount = 0 := by
  unfold set_prim
  rw [h]
  exact ⟨⟨_, rfl⟩, rfl, rfl, rfl⟩

/-- Witness for C10: a prim whose custom data is empty. -/
theorem c10_set_prim_missing_modifiers_witness :
    (∃ e, (set_prim [] []).1 = Except.error e) ∧
    (set_prim [] []).2.modSets = [] ∧
    (set_prim [] []).2.proxyLoads = [] ∧
    (set_prim [] []).2.applyCount = 0 :=
  c10_set_prim_missing_modifiers [] [] rfl

/-- C7: with an absent or empty "Proxies" dictionary, `set_prim` registers
no proxy at all and still completes the rest of the import (modifier sets
applied, one final target re-application). -/
theorem c7_set_prim_empty_proxies (mods mods1 : List Modifier) (cd : AList)
    (ms : List (String × CData)) (acts : List (String × ℚ × Bool))
    (hmod : lookupA cd "Modifiers" = some (CData.dict ms))
    (hok : setPrimMods mods ms = (Except.ok mods1, acts))
    (hprox : lookupA cd "Proxies" = none ∨
      lookupA cd "Proxies" = some (CData.dict [])) :
    set_prim mods cd = (Except.ok (applyAllTargets mods1),
      { modSets := acts, proxyLoads := [], applyCount := 1 }) := by
  unfold set_prim
  rw [hmod]
  rcases hprox with h | h <;>
    simp only [hok, h, pyTruthy, Bool.false_eq_true, if_false]

/-- Witness for C7: one known modifier, no "Proxies" key. -/
theorem c7_set_prim_empty_proxies_witness :
    set_prim [{ fullName := "m", value := 0 }]
        [("Modifiers", CData.dict [("m", CData.leaf (Val.vnum 1))])] =
      (Except.ok (applyAllTargets [{ fullName := "m", value := 1 }]),
        { modSets := [("m", 1, false)], proxyLoads := [], applyCount := 1 }) :=
  c7_set_prim_empty_proxies _ _ _ _ _ rfl rfl (Or.inl rfl)

/-- C8: an entry under "Modifiers" naming a modifier unknown to the
provider makes `set_prim` fail loudly — the lookup failure is propagated
to the caller as an error (modelled from the spec: the provider's
`getModifier` has no binding for the name). -/
theorem c8_set_prim_unknown_modifier (mods : List Modifier) (cd : AList)
    (ms : List (String × CData))
    (hmod : lookupA cd "Modifiers" = some (CData.dict ms))
    (hwf : ∀ e ∈ ms, ∃ q, e.2 = CData.leaf (Val.vnum q))
    (hunk : ∃ e ∈ ms, lookupMod mods e.1 = none) :
    ∃ er, (set_prim mods cd).1 = Except.error er := by
  obtain ⟨er, her⟩ := setPrimMods_err ms mods hwf hunk
  refine ⟨er, ?_⟩
  unfold set_prim
  rw [hmod]
  simp only [her]

/-- Witness for C8: custom data names a modifier the provider lacks. -/
theorem c8_set_prim_unknown_modifier_witness :
    ∃ er, (set_prim []
      [("Modifiers", CData.dict [("nope", CData.leaf (Val.vnum 1))])]).1 =
        Except.error er :=
  c8_set_prim_unknown_modifier [] _ _ rfl
    (by
      intro e he
      rw [List.mem_singleton] at he
      subst he
      exact ⟨1, rfl⟩)
    ⟨("nope", CData.leaf (Val.vnum 1)), List.mem_singleton.mpr rfl, rfl⟩

/-- C4 counterexample: at a concrete prim and provider, the recorded
`setValue` call passes `skipDependencies=False` — dependent-modifier
propagation is not deferred, contradicting the claim that it is skipped. -/
theorem c4_counterexample :
    ¬ (∀ a ∈ (set_prim [{ fullName := "head/head-age-old", value := 0 }]
        [("Modifiers", CData.dict
          [("head/head-age-old", CData.leaf (Val.vnum (7/10)))])]).2.modSets,
      a.2.2 = true) := by
  intro h
  have hms : (set_prim [{ fullName := "head/head-age-old", value := 0 }]
      [("Modifiers", CData.dict
        [("head/head-age-old", CData.leaf (Val.vnum (7/10)))])]).2.modSets =
      [("head/head-age-old", 7/10, false)] := rfl
  have h1 := h ("head/head-age-old", 7/10, false)
    (by rw [hms]; exact List.mem_singleton.mpr rfl)
  cases h1

theorem set_prim_modSets (mods : List Modifier) (cd : AList)
    (ms : List (String × CData))
    (hmod : lookupA cd "Modifiers" = some (CData.dict ms)) :
    (set_prim mods cd).2.modSets = (setPrimMods mods ms).2 := by
  unfold set_prim
  rw [hmod]
  cases hr : (setPrimMods mods ms).1 with
  | error e => simp only [hr]
  | ok mods1 =>
      simp only [hr]
      by_cases hb : pyTruthy (lookupA cd "Proxies") = true
      · rw [if_pos hb]
        cases hpv : lookupA cd "Proxies" with
        | none => rfl
        | some c =>
            cases c with
            | leaf v => rfl
            | dict ps =>
                cases hdp : (doProxies ps).1 with
                | error e => simp only [hdp]
                | ok u => simp only [hdp]
      · rw [if_neg hb]

theorem set_prim_ok_applyCount (mods : List Modifier) (cd : AList)
    (mods1 : List Modifier) (hok : (set_prim mods cd).1 = Except.ok mods1) :
    (set_prim mods cd).2.applyCount = 1 := by
  unfold set_prim at hok ⊢
  cases hm : lookupA cd "Modifiers" with
  | none =>
      rw [hm] at hok
      simp at hok
  | some c =>
      cases c with
      | leaf v =>
          rw [hm] at hok
          simp at hok
      | dict ms =>
          rw [hm] at hok
          cases hr : (setPrimMods mods ms).1 with
          | error e =>
              simp only [hr] at hok
              simp at hok
          | ok mods2 =>
              simp only [hr] at hok ⊢
              cases hpv : lookupA cd "Proxies" with
              | none =>
                  rw [if_neg (by simp [pyTruthy])]
                  try rfl
              | some cc =>
                  rw [hpv] at hok
                  cases cc with
                  | leaf v =>
                      by_cases hb : pyTruthy (some (CData.leaf v)) = true
                      · rw [if_pos hb] at hok
                        simp at hok
                      · rw [if_neg hb]
                        try rfl
                  | dict ps =>
                      by_cases hb : pyTruthy (some (CData.dict ps)) = true
                      · rw [if_pos hb] at hok ⊢
                        cases hdp : (doProxies ps).1 with
                        | error e =>
                            simp only [hdp] at hok
                            simp at hok
                        | ok u =>
                            simp only [hdp]
                            try rfl
                      · rw [if_neg hb]
                        try rfl

/-- C4 (amended): for every entry under "Modifiers", `set_prim` looks the
modifier up by fully-qualified name and sets its value with
`skipDependencies=False` — dependent-modifier propagation is NOT deferred
— and, when the import completes without error, exactly one full target
re-application is forced afterwards. -/
theorem c4_set_prim_setvalue_flags (mods : List Modifier) (cd : AList) :
    (∀ a ∈ (set_prim mods cd).2.modSets, a.2.2 = false) ∧
    (∀ mods1, (set_prim mods cd).1 = Except.ok mods1 →
      (set_prim mods cd).2.applyCount = 1) := by
  constructor
  · intro a ha
    cases hm : lookupA cd "Modifiers" with
    | none =>
        have hz : (set_prim mods cd).2.modSets = [] := by
          unfold set_prim
          rw [hm]
          rfl
        rw [hz] at ha
        cases ha
    | some c =>
        cases c with
        | leaf v =>
            have hz : (set_prim mods cd).2.modSets = [] := by
              unfold set_prim
              rw [hm]
              rfl
            rw [hz] at ha
            cases ha
        | dict ms =>
            rw [set_prim_modSets mods cd ms hm] at ha
            exact setPrimMods_flags ms mods a ha
  · intro mods1 hok
    exact set_prim_ok_applyCount mods cd mods1 hok

/-- Witness for the amended C4 at a concrete import. -/
theorem c4_set_prim_setvalue_flags_witness :
    (∀ a ∈ (set_prim [{ fullName := "m", value := 0 }]
        [("Modifiers", CData.dict [("m", CData.leaf (Val.vnum 1))])]).2.modSets,
      a.2.2 = false) ∧
    (set_prim [{ fullName := "m", value := 0 }]
        [("Modifiers", CData.dict [("m", CData.leaf (Val.vnum 1))])]).2.applyCount
      = 1 := by
  have h := c4_set_prim_setvalue_flags [{ fullName := "m", value := 0 }]
    [("Modifiers", CData.dict [("m", CData.leaf (Val.vnum 1))])]
  exact ⟨h.1, h.2 (applyAllTargets [{ fullName := "m", value := 1 }]) rfl⟩

/-! ### Round trip (C2) -/

theorem lookupMod_eq_none_iff (l : List Modifier) (n : String) :
    lookupMod l n = none ↔ n ∉ l.map Modifier.fullName := by
  induction l with
  | nil => simp [lookupMod]
  | cons m rest ih =>
      have hlm : lookupMod (m :: rest) n =
          if m.fullName = n then some m.value else lookupMod rest n := rfl
      rw [hlm]
      by_cases h : m.fullName = n
      · simp [h]
      · have hne : ¬ n = m.fullName := fun hc => h hc.symm
        simp [h, ih, hne]

theorem setModValue_names (l : List Modifier) (k : String) (q : ℚ) :
    (setModValue l k q).map Modifier.fullName = l.map Modifier.fullName := by
  induction l with
  | nil => rfl
  | cons m rest ih =>
      unfold setModValue
      by_cases h : m.fullName = k
      · rw [if_pos h, List.map_cons, List.map_cons]
      · rw [if_neg h, List.map_cons, List.map_cons, ih]

theorem lookupMod_setModValue_self (l : List Modifier) (k : String) (q : ℚ)
    (hk : k ∈ l.map Modifier.fullName) :
    lookupMod (setModValue l k q) k = some q := by
  induction l with
  | nil => cases hk
  | cons m rest ih =>
      unfold setModValue
      by_cases h : m.fullName = k
      · rw [if_pos h]
        unfold lookupMod
        rw [if_pos h]
      · rw [if_neg h]
        unfold lookupMod
        rw [if_neg h]
        apply ih
        rw [List.map_cons, List.mem_cons] at hk
        exact hk.resolve_left (fun hc => h hc.symm)

theorem lookupMod_setModValue_other (l : List Modifier) (k : String) (q : ℚ)
    (n : String) (h : n ≠ k) :
    lookupMod (setModValue l k q) n = lookupMod l n := by
  induction l with
  | nil => rfl
  | cons m rest ih =>
      unfold setModValue
      by_cases hm : m.fullName = k
      · rw [if_pos hm]
        unfold lookupMod
        by_cases h' : m.fullName = n
        · exact absurd (h'.symm.trans hm) h
        · rw [if_neg h', if_neg h']
      · rw [if_neg hm]
        unfold lookupMod
        by_cases h' : m.fullName = n
        · rw [if_pos h', if_pos h']
        · rw [if_neg h', if_neg h', ih]

theorem foldl_setModValue_lookup (l : List Modifier) :
    ∀ acc : List Modifier, (l.map Modifier.fullName).Nodup →
    (∀ m ∈ l, m.fullName ∈ acc.map Modifier.fullName) →
    ∀ n, lookupMod (l.foldl (fun acc m => setModValue acc m.fullName m.value) acc) n =
      if n ∈ l.map Modifier.fullName then lookupMod l n else lookupMod acc n := by
  induction l with
  | nil =>
      intro acc _ _ n
      simp
  | cons m rest ih =>
      intro acc hnd hdomA n
      rw [List.map_cons, List.nodup_cons] at hnd
      rw [List.foldl_cons]
      have hdomA' : ∀ b ∈ rest, b.fullName ∈
          (setModValue acc m.fullName m.value).map Modifier.fullName := by
        intro b hb
        rw [setModValue_names]
        exact hdomA b (List.mem_cons_of_mem _ hb)
      rw [ih (setModValue acc m.fullName m.value) hnd.2 hdomA' n]
      have hlm : lookupMod (m :: rest) n =
          if m.fullName = n then some m.value else lookupMod rest n := rfl
      by_cases hn : n ∈ rest.map Modifier.fullName
      · rw [if_pos hn, List.map_cons,
          if_pos (List.mem_cons_of_mem _ hn), hlm,
          if_neg (fun hc => hnd.1 (by rw [hc]; exact hn))]
      · rw [if_neg hn]
        by_cases hnm : n = m.fullName
        · rw [List.map_cons, if_pos (by rw [List.mem_cons]; exact Or.inl hnm), hnm,
            lookupMod_setModValue_self acc m.fullName m.value
              (hdomA m (List.mem_cons_self _ _))]
          have hlm2 : lookupMod (m :: rest) m.fullName =
              if m.fullName = m.fullName then some m.value
              else lookupMod rest m.fullName := rfl
          rw [hlm2, if_pos rfl]
        · rw [List.map_cons,
            if_neg (fun hc => (List.mem_cons.mp hc).elim
              (fun h1 => hnm h1) (fun h1 => hn h1)),
            lookupMod_setModValue_other acc m.fullName m.value n
              (fun hc => hnm hc)]

theorem headsOf_mapProxTail (pl : List Proxy) :
    headsOf (pl.map proxTail) = pl.map defaultedType := by
  induction pl with
  | nil => rfl
  | cons p rest ih =>
      rw [List.map_cons, List.map_cons]
      by_cases hcl : clothesLike p
      · have hq : proxTail p = ([defaultedType p, p.name], Val.vstr p.file) := by
          unfold proxTail
          rw [if_pos hcl]
        rw [hq]
        have hh : headsOf (([defaultedType p, p.name], Val.vstr p.file) ::
            rest.map proxTail) = defaultedType p :: headsOf (rest.map proxTail) := rfl
        rw [hh, ih]
      · have hq : proxTail p = ([defaultedType p], Val.vstr p.file) := by
          unfold proxTail
          rw [if_neg hcl]
        rw [hq]
        have hh : headsOf (([defaultedType p], Val.vstr p.file) ::
            rest.map proxTail) = defaultedType p :: headsOf (rest.map proxTail) := rfl
        rw [hh, ih]

theorem doProxies_char (es : List (String × CData))
    (h : ∀ e ∈ es, (e.1 = "proxymeshes" ∨ e.1 = "clothes") →
      ∃ ds, e.2 = CData.dict ds) :
    doProxies es = (Except.ok (), es.flatMap entryLoads) := by
  induction es with
  | nil => rfl
  | cons e rest ih =>
      obtain ⟨t, v⟩ := e
      have ihr := ih (fun e' he' => h e' (List.mem_cons_of_mem _ he'))
      unfold doProxies
      by_cases ht : t ≠ "proxymeshes" ∧ t ≠ "clothes"
      · rw [if_pos ht, ihr]
        have hl : entryLoads (t, v) = [(v, t)] := by
          unfold entryLoads
          rw [if_pos ht]
        rw [List.flatMap_cons, hl]
        rfl
      · have ht' : t = "proxymeshes" ∨ t = "clothes" := by
          by_cases h1 : t = "proxymeshes"
          · exact Or.inl h1
          · by_cases h2 : t = "clothes"
            · exact Or.inr h2
            · exact absurd ⟨h1, h2⟩ ht
        obtain ⟨ds, hds⟩ := h (t, v) (List.mem_cons_self _ _) ht'
        have hds' : v = CData.dict ds := hds
        subst hds'
        rw [if_neg ht, ihr]
        have hl : entryLoads (t, CData.dict ds) =
            ds.map (fun d => (d.2, t)) := by
          unfold entryLoads
          rw [if_neg ht]
          rfl
        rw [List.flatMap_cons, hl]

theorem proxTail_path_ne_nil (pl : List Proxy) :
    ∀ w ∈ pl.map proxTail, w.1 ≠ [] := by
  intro w hw
  rw [List.mem_map] at hw
  obtain ⟨p, _, rfl⟩ := hw
  unfold proxTail
  by_cases hcl : clothesLike p
  · rw [if_pos hcl]
    simp
  · rw [if_neg hcl]
    simp

theorem mem_lastKeys_prox (pl : List Proxy) (t : String) :
    t ∈ lastKeys (pl.map proxTail) ↔ ∃ p ∈ pl, defaultedType p = t := by
  rw [mem_lastKeys, headsOf_mapProxTail, List.mem_map]

theorem nodup_filter_names (pl : List Proxy) (hndp : (pl.map keyPathOf).Nodup)
    (t : String) (ht : t = "clothes" ∨ t = "proxymeshes") :
    ((pl.filter (fun q => defaultedType q = t)).map Proxy.name).Nodup := by
  induction pl with
  | nil => simp
  | cons q rest ih =>
      rw [List.map_cons, List.nodup_cons] at hndp
      rw [List.filter_cons]
      by_cases hq : defaultedType q = t
      · rw [if_pos (by simp [hq]), List.map_cons, List.nodup_cons]
        refine ⟨?_, ih hndp.2⟩
        intro hc
        rw [List.mem_map] at hc
        obtain ⟨q', hq', hname⟩ := hc
        have hq'f := List.mem_filter.mp hq'
        have hdt' : defaultedType q' = t := by simpa using hq'f.2
        have hclq : clothesLike q := by
          show defaultedType q = "clothes" ∨ defaultedType q = "proxymeshes"
          rw [hq]
          exact ht
        have hclq' : clothesLike q' := by
          show defaultedType q' = "clothes" ∨ defaultedType q' = "proxymeshes"
          rw [hdt']
          exact ht
        apply hndp.1
        have hkp : keyPathOf q' = keyPathOf q := by
          unfold keyPathOf
          rw [if_pos hclq', if_pos hclq, hdt', hq, hname]
        rw [← hkp]
        exact List.mem_map_of_mem keyPathOf hq'f.1
      · rw [if_neg (by simp [hq])]
        exact ih hndp.2

theorem filter_dt_eq_singleton_other (pl : List Proxy)
    (hndp : (pl.map keyPathOf).Nodup) (p : Proxy) (hp : p ∈ pl)
    (hcl : ¬ clothesLike p) :
    pl.filter (fun q => defaultedType q = defaultedType p) = [p] := by
  apply filter_eq_singleton_of_nodup pl keyPathOf _ hndp p hp
  intro b _
  constructor
  · intro hb
    rw [decide_eq_true_eq] at hb
    have hclb : ¬ clothesLike b := by
      intro hc
      apply hcl
      show defaultedType p = "clothes" ∨ defaultedType p = "proxymeshes"
      rw [← hb]
      exact hc
    unfold keyPathOf
    rw [if_neg hclb, if_neg hcl, hb]
  · intro hkpb
    unfold keyPathOf at hkpb
    rw [if_neg hcl] at hkpb
    by_cases hclb : clothesLike b
    · rw [if_pos hclb] at hkpb
      simp at hkpb
    · rw [if_neg hclb] at hkpb
      simp only [List.cons.injEq, and_true] at hkpb
      simp [hkpb.2]

theorem entryVal_clothes (pl : List Proxy) (hndp : (pl.map keyPathOf).Nodup)
    (t : String) (ht : t = "clothes" ∨ t = "proxymeshes")
    (hne : ∃ p ∈ pl, defaultedType p = t) :
    entryVal (pl.map proxTail) [] t =
      CData.dict ((pl.filter (fun q => defaultedType q = t)).map
        (fun q => (q.name, CData.leaf (Val.vstr q.file)))) := by
  unfold entryVal
  rw [tailsAt_mapProxTail]
  have hFcl : ∀ q ∈ pl.filter (fun q => defaultedType q = t), clothesLike q := by
    intro q hq
    have hq1 := List.mem_filter.mp hq
    have hdt : defaultedType q = t := by simpa using hq1.2
    show defaultedType q = "clothes" ∨ defaultedType q = "proxymeshes"
    rw [hdt]
    exact ht
  have hFmap : (pl.filter (fun q => defaultedType q = t)).map innerTail =
      (pl.filter (fun q => defaultedType q = t)).map
        (fun q => ([q.name], Val.vstr q.file)) := by
    apply List.map_congr_left
    intro q hq
    unfold innerTail
    rw [if_pos (hFcl q hq)]
  rw [hFmap]
  obtain ⟨p, hp, hdt⟩ := hne
  have hpF : p ∈ pl.filter (fun q => defaultedType q = t) :=
    List.mem_filter.mpr ⟨hp, by simp [hdt]⟩
  rw [chainW_all_nonempty _
    (by
      intro w hw
      rw [List.mem_map] at hw
      obtain ⟨q, _, rfl⟩ := hw
      simp)
    (by
      intro hc
      rw [List.map_eq_nil_iff] at hc
      rw [hc] at hpF
      cases hpF)]
  rw [Option.getD_some]
  have hW := W_singles_append (pl.filter (fun q => defaultedType q = t))
    Proxy.name (fun q => Val.vstr q.file) [] (nodup_filter_names pl hndp t ht)
    (by intro a _ e he; cases he)
  exact congrArg CData.dict hW

theorem entryVal_other (pl : List Proxy) (hndp : (pl.map keyPathOf).Nodup)
    (p : Proxy) (hp : p ∈ pl) (hcl : ¬ clothesLike p) :
    entryVal (pl.map proxTail) [] (defaultedType p) =
      CData.leaf (Val.vstr p.file) := by
  unfold entryVal
  rw [tailsAt_mapProxTail, filter_dt_eq_singleton_other pl hndp p hp hcl,
    List.map_singleton]
  have hin : innerTail p = ([], Val.vstr p.file) := by
    unfold innerTail
    rw [if_neg hcl]
  rw [hin]
  rfl

theorem proxies_dict_char (pl : List Proxy) :
    W (pl.map proxTail) [] = (lastKeys (pl.map proxTail)).map
      (fun t => (t, entryVal (pl.map proxTail) [] t)) := by
  rw [W_nf (pl.map proxTail) (proxTail_path_ne_nil pl) [], filterUntouched_nil_l,
    List.nil_append]

theorem proxyLoads_mem_iff (pl : List Proxy) (hndp : (pl.map keyPathOf).Nodup)
    (f : String) (t₀ : String) :
    ((CData.leaf (Val.vstr f), t₀) ∈
      ((lastKeys (pl.map proxTail)).map
        (fun t => (t, entryVal (pl.map proxTail) [] t))).flatMap entryLoads) ↔
    ∃ p ∈ pl, defaultedType p = t₀ ∧ p.file = f := by
  rw [List.mem_flatMap]
  constructor
  · rintro ⟨e, he, hme⟩
    rw [List.mem_map] at he
    obtain ⟨t, htl, rfl⟩ := he
    by_cases hts : t ≠ "proxymeshes" ∧ t ≠ "clothes"
    · rw [show entryLoads (t, entryVal (pl.map proxTail) [] t) =
          [(entryVal (pl.map proxTail) [] t, t)] from by
            unfold entryLoads
            rw [if_pos hts]] at hme
      rw [List.mem_singleton, Prod.mk.injEq] at hme
      obtain ⟨p, hp, hdt⟩ := (mem_lastKeys_prox pl t).mp htl
      have hclp : ¬ clothesLike p := by
        intro hc
        rcases hc with h | h
        · exact hts.2 (by rw [← hdt, h])
        · exact hts.1 (by rw [← hdt, h])
      refine ⟨p, hp, by rw [hdt, hme.2], ?_⟩
      have hev := entryVal_other pl hndp p hp hclp
      rw [hdt] at hev
      rw [hev] at hme
      have := hme.1
      injection this with hval
      injection hval with hf
      exact hf.symm
    · have ht' : t = "clothes" ∨ t = "proxymeshes" := by
        by_cases h1 : t = "clothes"
        · exact Or.inl h1
        · by_cases h2 : t = "proxymeshes"
          · exact Or.inr h2
          · exact absurd ⟨h2, h1⟩ hts
      rw [show entryLoads (t, entryVal (pl.map proxTail) [] t) =
          (asDictO (some (entryVal (pl.map proxTail) [] t))).map
            (fun d => (d.2, t)) from by
            unfold entryLoads
            rw [if_neg hts]] at hme
      rw [entryVal_clothes pl hndp t ht' ((mem_lastKeys_prox pl t).mp htl),
        asDictO_dict, List.map_map] at hme
      rw [List.mem_map] at hme
      obtain ⟨q, hq, hqe⟩ := hme
      have hq1 := List.mem_filter.mp hq
      have hdt : defaultedType q = t := by simpa using hq1.2
      have hqe' : (CData.leaf (Val.vstr q.file), t) = (CData.leaf (Val.vstr f), t₀) := hqe
      rw [Prod.mk.injEq] at hqe'
      refine ⟨q, hq1.1, by rw [hdt, hqe'.2], ?_⟩
      have h1 := hqe'.1
      simpa using h1
  · rintro ⟨p, hp, hdt, hf⟩
    by_cases hcl : clothesLike p
    · have ht' : t₀ = "clothes" ∨ t₀ = "proxymeshes" := by
        rcases hcl with h | h
        · exact Or.inl (by rw [← hdt, h])
        · exact Or.inr (by rw [← hdt, h])
      refine ⟨(t₀, entryVal (pl.map proxTail) [] t₀), ?_, ?_⟩
      · rw [List.mem_map]
        exact ⟨t₀, (mem_lastKeys_prox pl t₀).mpr ⟨p, hp, hdt⟩, rfl⟩
      · rw [show entryLoads (t₀, entryVal (pl.map proxTail) [] t₀) =
            (asDictO (some (entryVal (pl.map proxTail) [] t₀))).map
              (fun d => (d.2, t₀)) from by
              unfold entryLoads
              rw [if_neg (by
                intro hc
                rcases ht' with h | h
                · exact hc.2 h
                · exact hc.1 h)]]
        rw [entryVal_clothes pl hndp t₀ ht' ⟨p, hp, hdt⟩, asDictO_dict,
          List.map_map, List.mem_map]
        refine ⟨p, List.mem_filter.mpr ⟨hp, by simp [hdt]⟩, ?_⟩
        show (CData.leaf (Val.vstr p.file), t₀) = (CData.leaf (Val.vstr f), t₀)
        rw [hf]
    · have hts : t₀ ≠ "proxymeshes" ∧ t₀ ≠ "clothes" := by
        constructor
        · intro hc
          exact hcl (Or.inr (by rw [hdt, hc]))
        · intro hc
          exact hcl (Or.inl (by rw [hdt, hc]))
      refine ⟨(t₀, entryVal (pl.map proxTail) [] t₀), ?_, ?_⟩
      · rw [List.mem_map]
        exact ⟨t₀, (mem_lastKeys_prox pl t₀).mpr ⟨p, hp, hdt⟩, rfl⟩
      · rw [show entryLoads (t₀, entryVal (pl.map proxTail) [] t₀) =
            [(entryVal (pl.map proxTail) [] t₀, t₀)] from by
              unfold entryLoads
              rw [if_pos hts]]
        have hev := entryVal_other pl hndp p hp hcl
        rw [hdt] at hev
        rw [hev, List.mem_singleton, hf]

theorem proxyLoads_shape (pl : List Proxy) (hndp : (pl.map keyPathOf).Nodup) :
    ∀ v t, (v, t) ∈
      ((lastKeys (pl.map proxTail)).map
        (fun t => (t, entryVal (pl.map proxTail) [] t))).flatMap entryLoads →
    ∃ f, v = CData.leaf (Val.vstr f) := by
  intro v t hv
  rw [List.mem_flatMap] at hv
  obtain ⟨e, he, hme⟩ := hv
  rw [List.mem_map] at he
  obtain ⟨t', htl, rfl⟩ := he
  by_cases hts : t' ≠ "proxymeshes" ∧ t' ≠ "clothes"
  · rw [show entryLoads (t', entryVal (pl.map proxTail) [] t') =
        [(entryVal (pl.map proxTail) [] t', t')] from by
          unfold entryLoads
          rw [if_pos hts]] at hme
    rw [List.mem_singleton, Prod.mk.injEq] at hme
    obtain ⟨p, hp, hdt⟩ := (mem_lastKeys_prox pl t').mp htl
    have hclp : ¬ clothesLike p := by
      intro hc
      rcases hc with h | h
      · exact hts.2 (by rw [← hdt, h])
      · exact hts.1 (by rw [← hdt, h])
    have hev := entryVal_other pl hndp p hp hclp
    rw [hdt] at hev
    refine ⟨p.file, ?_⟩
    rw [hme.1, hev]
  · have ht' : t' = "clothes" ∨ t' = "proxymeshes" := by
      by_cases h1 : t' = "clothes"
      · exact Or.inl h1
      · by_cases h2 : t' = "proxymeshes"
        · exact Or.inr h2
        · exact absurd ⟨h2, h1⟩ hts
    rw [show entryLoads (t', entryVal (pl.map proxTail) [] t') =
        (asDictO (some (entryVal (pl.map proxTail) [] t'))).map
          (fun d => (d.2, t')) from by
          unfold entryLoads
          rw [if_neg hts]] at hme
    rw [entryVal_clothes pl hndp t' ht' ((mem_lastKeys_prox pl t').mp htl),
      asDictO_dict, List.map_map, List.mem_map] at hme
    obtain ⟨q, _, hqe⟩ := hme
    have hqe' : (CData.leaf (Val.vstr q.file), t') = (v, t) := hqe
    rw [Prod.mk.injEq] at hqe'
    exact ⟨q.file, hqe'.1.symm⟩

/-- C2: exporting a provider state to a fresh prim with `write_properties`
and importing it back with `set_prim` reproduces exactly the modifier
value assignment, and requests exactly the exported proxy files (by
defaulted type).  Hypotheses: provider invariants (colon-free names,
distinct modifier names, distinct proxy key paths, at least one modifier —
the provider always exposes the full modifier list; with none exported
the re-import would fail on the absent "Modifiers" key), and the importing
provider knows the same modifier names. -/
theorem c2_round_trip (st : MHState) (mods1 : List Modifier)
    (hsplit : SplitOk st)
    (hndm : (st.modifiers.map Modifier.fullName).Nodup)
    (hndp : (st.proxies.map keyPathOf).Nodup)
    (hm : st.modifiers ≠ [])
    (hdom : mods1.map Modifier.fullName = st.modifiers.map Modifier.fullName) :
    ∃ mods2 fx,
      set_prim mods1 (write_properties st []) = (Except.ok mods2, fx) ∧
      (∀ n, lookupMod mods2 n = lookupMod st.modifiers n) ∧
      (∀ f t, (CData.leaf (Val.vstr f), t) ∈ fx.proxyLoads ↔
        ∃ p ∈ st.proxies, defaultedType p = t ∧ p.file = f) ∧
      (∀ v t, (v, t) ∈ fx.proxyLoads → ∃ f, v = CData.leaf (Val.vstr f)) := by
  have hcdM : lookupA (write_properties st []) "Modifiers" =
      some (CData.dict (st.modifiers.map
        (fun a => (a.fullName, CData.leaf (Val.vnum a.value))))) := by
    rw [wp_modifiers_entry st [] hsplit hm]
    have h2 := W_singles_append st.modifiers Modifier.fullName
      (fun m => Val.vnum m.value) [] hndm (by intro a _ e he; cases he)
    exact congrArg (fun x => some (CData.dict x)) h2
  have hall : ∀ a ∈ st.modifiers, lookupMod mods1 a.fullName ≠ none := by
    intro a ha hc
    rw [lookupMod_eq_none_iff, hdom] at hc
    exact hc (List.mem_map_of_mem Modifier.fullName ha)
  have hsp := setPrimMods_map st.modifiers Modifier.fullName Modifier.value mods1 hall
  have hlook : ∀ n, lookupMod (st.modifiers.foldl
      (fun acc m => setModValue acc m.fullName m.value) mods1) n =
      lookupMod st.modifiers n := by
    intro n
    rw [foldl_setModValue_lookup st.modifiers mods1 hndm
      (by
        intro a ha
        rw [hdom]
        exact List.mem_map_of_mem Modifier.fullName ha) n]
    by_cases hn : n ∈ st.modifiers.map Modifier.fullName
    · rw [if_pos hn]
    · rw [if_neg hn,
        (lookupMod_eq_none_iff mods1 n).mpr (by rw [hdom]; exact hn),
        (lookupMod_eq_none_iff st.modifiers n).mpr hn]
  by_cases hpl : st.proxies = []
  · have hcdP : lookupA (write_properties st []) "Proxies" = none := by
      rw [lookupA_write_properties, tailsAt_actual st hsplit, hpl]
      rfl
    refine ⟨applyAllTargets (st.modifiers.foldl
        (fun acc m => setModValue acc m.fullName m.value) mods1),
      { modSets := st.modifiers.map (fun a => (a.fullName, a.value, false)),
        proxyLoads := [], applyCount := 1 }, ?_, ?_, ?_, ?_⟩
    · unfold set_prim
      rw [hcdM]
      simp only [hsp]
      rw [hcdP]
      rfl
    · exact hlook
    · intro f t
      simp [hpl]
    · intro v t hv
      cases hv
  · have hcdP : lookupA (write_properties st []) "Proxies" =
        some (CData.dict ((lastKeys (st.proxies.map proxTail)).map
          (fun t => (t, entryVal (st.proxies.map proxTail) [] t)))) := by
      rw [wp_proxies_entry st [] hsplit hpl]
      exact congrArg (fun x => some (CData.dict x)) (proxies_dict_char st.proxies)
    obtain ⟨p₀, hp₀⟩ := List.exists_mem_of_ne_nil st.proxies hpl
    have ht₀ : defaultedType p₀ ∈ lastKeys (st.proxies.map proxTail) :=
      (mem_lastKeys_prox st.proxies (defaultedType p₀)).mpr ⟨p₀, hp₀, rfl⟩
    have hpsne : (lastKeys (st.proxies.map proxTail)).map
        (fun t => (t, entryVal (st.proxies.map proxTail) [] t)) ≠ [] := by
      intro hc
      rw [List.map_eq_nil_iff] at hc
      rw [hc] at ht₀
      cases ht₀
    have htruthy : pyTruthy (some (CData.dict
        ((lastKeys (st.proxies.map proxTail)).map
          (fun t => (t, entryVal (st.proxies.map proxTail) [] t))))) = true := by
      cases hq : (lastKeys (st.proxies.map proxTail)).map
          (fun t => (t, entryVal (st.proxies.map proxTail) [] t)) with
      | nil => exact absurd hq hpsne
      | cons e es => rfl
    have hcond : ∀ e ∈ (lastKeys (st.proxies.map proxTail)).map
        (fun t => (t, entryVal (st.proxies.map proxTail) [] t)),
        (e.1 = "proxymeshes" ∨ e.1 = "clothes") → ∃ ds, e.2 = CData.dict ds := by
      intro e he hcl
      rw [List.mem_map] at he
      obtain ⟨t, htl, rfl⟩ := he
      have ht' : t = "clothes" ∨ t = "proxymeshes" := hcl.symm
      exact ⟨_, entryVal_clothes st.proxies hndp t ht'
        ((mem_lastKeys_prox st.proxies t).mp htl)⟩
    have hdp := doProxies_char _ hcond
    refine ⟨applyAllTargets (st.modifiers.foldl
        (fun acc m => setModValue acc m.fullName m.value) mods1),
      { modSets := st.modifiers.map (fun a => (a.fullName, a.value, false)),
        proxyLoads := ((lastKeys (st.proxies.map proxTail)).map
          (fun t => (t, entryVal (st.proxies.map proxTail) [] t))).flatMap
            entryLoads,
        applyCount := 1 }, ?_, ?_, ?_, ?_⟩
    · unfold set_prim
      rw [hcdM]
      simp only [hsp]
      rw [hcdP, if_pos htruthy]
      simp only [hdp]
    · exact hlook
    · intro f t
      exact proxyLoads_mem_iff st.proxies hndp f t
    · exact proxyLoads_shape st.proxies hndp

/-- Witness for C2 at the Greta state, importing into a provider with the
same modifier name at a different value. -/
theorem c2_round_trip_witness :
    ∃ mods2 fx,
      set_prim [{ fullName := "head/head-age-old", value := 0 }]
          (write_properties gretaState []) = (Except.ok mods2, fx) ∧
      (∀ n, lookupMod mods2 n = lookupMod gretaState.modifiers n) ∧
      (∀ f t, (CData.leaf (Val.vstr f), t) ∈ fx.proxyLoads ↔
        ∃ p ∈ gretaState.proxies, defaultedType p = t ∧ p.file = f) ∧
      (∀ v t, (v, t) ∈ fx.proxyLoads → ∃ f, v = CData.leaf (Val.vstr f)) :=
  c2_round_trip gretaState [{ fullName := "head/head-age-old", value := 0 }]
    (by decide) (by decide) (by decide) (List.cons_ne_nil _ _) (by decide)

/-! ### Mesh import (`import_meshes`) -/

@[simp] theorem lookupL_nil {β : Type} (k : String) :
    lookupL ([] : List (String × β)) k = none := rfl

@[simp] theorem lookupL_cons {β : Type} (k : String) (v : β)
    (rest : List (String × β)) (k' : String) :
    lookupL ((k, v) :: rest) k' = if k = k' then some v else lookupL rest k' := rfl

theorem lookupL_append {β : Type} (l₁ l₂ : List (String × β)) (k : String) :
    lookupL (l₁ ++ l₂) k = (lookupL l₁ k).orElse (fun _ => lookupL l₂ k) := by
  induction l₁ with
  | nil => simp
  | cons e rest ih =>
      obtain ⟨ek, ev⟩ := e
      by_cases h : ek = k
      · simp [h]
      · simp [h, ih]

theorem lookupL_map_replace_other {β : Type} (l : List (String × β)) (k : String)
    (v : β) (k' : String) (h : k' ≠ k) :
    lookupL (l.map (fun e => if e.1 = k then (k, v) else e)) k' = lookupL l k' := by
  induction l with
  | nil => rfl
  | cons e rest ih =>
      obtain ⟨ek, ev⟩ := e
      rw [List.map_cons]
      by_cases hek : ek = k
      · rw [if_pos hek, lookupL_cons, lookupL_cons,
          if_neg (fun hc => h hc.symm), if_neg (fun hc => h (hc.symm.trans hek)), ih]
      · rw [if_neg hek, lookupL_cons, lookupL_cons]
        by_cases hek' : ek = k'
        · rw [if_pos hek', if_pos hek']
        · rw [if_neg hek', if_neg hek', ih]

theorem lookupL_map_replace_self {β : Type} (l : List (String × β)) (k : String)
    (v : β) (h : l.any (fun e => e.1 = k) = true) :
    lookupL (l.map (fun e => if e.1 = k then (k, v) else e)) k = some v := by
  induction l with
  | nil => simp at h
  | cons e rest ih =>
      obtain ⟨ek, ev⟩ := e
      rw [List.map_cons]
      by_cases hek : ek = k
      · rw [if_pos hek, lookupL_cons, if_pos rfl]
      · rw [if_neg hek, lookupL_cons, if_neg hek]
        apply ih
        rw [List.any_cons] at h
        simpa [hek] using h

theorem lookupL_append_single_self {β : Type} (l : List (String × β)) (k : String)
    (v : β) (h : l.any (fun e => e.1 = k) = false) :
    lookupL (l ++ [(k, v)]) k = some v := by
  induction l with
  | nil => simp
  | cons e rest ih =>
      obtain ⟨ek, ev⟩ := e
      rw [List.any_cons] at h
      have h1 : ¬ ek = k := by
        intro hc
        simp [hc] at h
      rw [List.cons_append, lookupL_cons, if_neg h1]
      apply ih
      simpa [h1] using h

theorem lookupL_updIn_self {β : Type} (l : List (String × β)) (k : String) (v : β) :
    lookupL (updIn l k v) k = some v := by
  unfold updIn
  by_cases h : l.any (fun e => e.1 = k) = true
  · rw [if_pos h]
    exact lookupL_map_replace_self l k v h
  · rw [if_neg h]
    exact lookupL_append_single_self l k v (Bool.eq_false_iff.mpr h)

theorem lookupL_updIn_other {β : Type} (l : List (String × β)) (k : String) (v : β)
    (k' : String) (h : k' ≠ k) :
    lookupL (updIn l k v) k' = lookupL l k' := by
  unfold updIn
  by_cases ha : l.any (fun e => e.1 = k) = true
  · rw [if_pos ha]
    exact lookupL_map_replace_other l k v k' h
  · rw [if_neg ha, lookupL_append]
    cases hl : lookupL l k' with
    | none =>
        show lookupL [(k, v)] k' = none
        rw [lookupL_cons, if_neg (fun hc => h hc.symm)]
        rfl
    | some w => rfl

theorem updIn_map_fst_of_any {β : Type} (l : List (String × β)) (k : String)
    (v : β) (h : l.any (fun e => e.1 = k) = true) :
    (updIn l k v).map Prod.fst = l.map Prod.fst := by
  unfold updIn
  rw [if_pos h, List.map_map]
  apply List.map_congr_left
  intro e _
  by_cases he : e.1 = k
  · simp [he]
  · simp [he]

theorem updIn_of_not_any {β : Type} (l : List (String × β)) (k : String) (v : β)
    (h : l.any (fun e => e.1 = k) = false) :
    updIn l k v = l ++ [(k, v)] := by
  unfold updIn
  rw [if_neg (by simp [h])]

theorem any_of_lookupL_some {β : Type} (l : List (String × β)) (k : String) (v : β)
    (h : lookupL l k = some v) : l.any (fun e => e.1 = k) = true := by
  induction l with
  | nil => cases h
  | cons e rest ih =>
      obtain ⟨ek, ev⟩ := e
      rw [lookupL_cons] at h
      rw [List.any_cons]
      by_cases hek : ek = k
      · simp [hek]
      · rw [if_neg hek] at h
        simp [hek, ih h]

theorem any_of_lookupL_none {β : Type} (l : List (String × β)) (k : String)
    (h : lookupL l k = none) : l.any (fun e => e.1 = k) = false := by
  induction l with
  | nil => rfl
  | cons e rest ih =>
      obtain ⟨ek, ev⟩ := e
      rw [lookupL_cons] at h
      by_cases hek : ek = k
      · rw [if_pos hek] at h
        cases h
      · rw [if_neg hek] at h
        rw [List.any_cons]
        simp [hek, ih h]

theorem importMesh_found (sanitize : String → String) (prim_path : String)
    (offset : Vec3) (stage : Stage) (mesh : HMesh) (pr : UPrim)
    (hpr : lookupL stage (prim_path ++ "/" ++ sanitize mesh.name) = some pr) :
    (importMesh sanitize prim_path offset stage mesh) =
      (updIn stage (prim_path ++ "/" ++ sanitize mesh.name)
        { pr with attrs :=
          (updIn (updIn (updIn (updIn (updIn (updIn pr.attrs
            "points" (AttrVal.pts (addOffset offset mesh.coords)))
            "faceVertexCounts" (AttrVal.counts (nfaceList
              (pruneIdx mesh.face_mask mesh.vertsPerFaceForExport mesh.fvert)
              mesh.vertsPerFaceForExport)))
            "faceVertexIndices" (AttrVal.idxs
              (pruneIdx mesh.face_mask mesh.vertsPerFaceForExport mesh.fvert)))
            "normals" (AttrVal.nrms mesh.normals))
            "primvars:st" (AttrVal.uvs (getUVs mesh
              (pruneUVIdx mesh.face_mask mesh.vertsPerFaceForExport
                mesh.fvert mesh.fuvs))))
            "subdivisionScheme" (AttrVal.tok "none")) },
       prim_path ++ "/" ++ sanitize mesh.name) := by
  simp only [importMesh, hpr]

theorem importMesh_notfound (sanitize : String → String) (prim_path : String)
    (offset : Vec3) (stage : Stage) (mesh : HMesh)
    (hpr : lookupL stage (prim_path ++ "/" ++ sanitize mesh.name) = none) :
    (importMesh sanitize prim_path offset stage mesh) =
      (stage ++ [(prim_path ++ "/" ++ sanitize mesh.name,
        { typeName := "Mesh", attrs :=
          [("points", AttrVal.pts (addOffset offset mesh.coords)),
           ("faceVertexCounts", AttrVal.counts (nfaceList
             (pruneIdx mesh.face_mask mesh.vertsPerFaceForExport mesh.fvert)
             mesh.vertsPerFaceForExport)),
           ("faceVertexIndices", AttrVal.idxs
             (pruneIdx mesh.face_mask mesh.vertsPerFaceForExport mesh.fvert)),
           ("normals", AttrVal.nrms mesh.normals),
           ("normals:interpolation", AttrVal.tok "vertex"),
           ("primvars:st", AttrVal.uvs (getUVs mesh
             (pruneUVIdx mesh.face_mask mesh.vertsPerFaceForExport
               mesh.fvert mesh.fuvs))),
           ("subdivisionScheme", AttrVal.tok "none")] })],
       prim_path ++ "/" ++ sanitize mesh.name) := by
  simp only [importMesh, hpr]

theorem importMesh_snd (sanitize : String → String) (prim_path : String)
    (offset : Vec3) (stage : Stage) (mesh : HMesh) :
    (importMesh sanitize prim_path offset stage mesh).2 =
      prim_path ++ "/" ++ sanitize mesh.name := by
  cases h : lookupL stage (prim_path ++ "/" ++ sanitize mesh.name) with
  | none => rw [importMesh_notfound sanitize prim_path offset stage mesh h]
  | some pr => rw [importMesh_found sanitize prim_path offset stage mesh pr h]

theorem import_meshes_fold_snd (sanitize : String → String) (prim_path : String)
    (offset : Vec3) :
    ∀ (ms : List HMesh) (stg : Stage) (acc : List String),
      (ms.foldl (fun acc mesh =>
        let r := importMesh sanitize prim_path offset acc.1 mesh
        (r.1, acc.2 ++ [r.2])) (stg, acc)).2 =
      acc ++ ms.map (fun m => prim_path ++ "/" ++ sanitize m.name) := by
  intro ms
  induction ms with
  | nil => intro stg acc; simp
  | cons m rest ih =>
      intro stg acc
      rw [List.foldl_cons]
      show (rest.foldl _
        ((importMesh sanitize prim_path offset stg m).1,
         acc ++ [(importMesh sanitize prim_path offset stg m).2])).2 = _
      rw [ih _ _, importMesh_snd, List.map_cons, List.append_assoc,
        List.singleton_append]

/-- C9: `import_meshes` returns exactly one scene path per mesh of the
provider's object set, in mesh-iteration order, each equal to the human
prim path extended by the sanitized mesh name as a child-prim name. -/
theorem c9_import_meshes_paths (sanitize : String → String) (prim_path : String)
    (stage : Stage) (meshes : List HMesh) (offset : Vec3) :
    (import_meshes sanitize prim_path stage meshes offset).2 =
      meshes.map (fun m => prim_path ++ "/" ++ sanitize m.name) := by
  show (meshes.foldl _ (stage, [])).2 = _
  rw [import_meshes_fold_snd sanitize prim_path offset meshes stage []]
  exact List.nil_append _

/-- C6: per mesh, when the computed child path already holds a prim,
`import_meshes` updates the existing points, faceVertexCounts,
faceVertexIndices and normals attributes in place: the stage's prim paths
are unchanged (no duplicate prim) and the prim at the path keeps its type
name while carrying the new geometry; only when no prim exists at the
path is a new "Mesh" prim appended. -/
theorem c6_import_mesh_update_or_create (sanitize : String → String)
    (prim_path : String) (offset : Vec3) (stage : Stage) (mesh : HMesh) :
    (∀ pr, lookupL stage (prim_path ++ "/" ++ sanitize mesh.name) = some pr →
      ((importMesh sanitize prim_path offset stage mesh).1.map Prod.fst =
        stage.map Prod.fst ∧
       ∃ pr', lookupL (importMesh sanitize prim_path offset stage mesh).1
           (prim_path ++ "/" ++ sanitize mesh.name) = some pr' ∧
         pr'.typeName = pr.typeName ∧
         lookupL pr'.attrs "points" =
           some (AttrVal.pts (addOffset offset mesh.coords)) ∧
         lookupL pr'.attrs "faceVertexCounts" = some (AttrVal.counts
           (nfaceList (pruneIdx mesh.face_mask mesh.vertsPerFaceForExport
             mesh.fvert) mesh.vertsPerFaceForExport)) ∧
         lookupL pr'.attrs "faceVertexIndices" = some (AttrVal.idxs
           (pruneIdx mesh.face_mask mesh.vertsPerFaceForExport mesh.fvert)) ∧
         lookupL pr'.attrs "normals" = some (AttrVal.nrms mesh.normals))) ∧
    (lookupL stage (prim_path ++ "/" ++ sanitize mesh.name) = none →
      ((importMesh sanitize prim_path offset stage mesh).1.map Prod.fst =
        stage.map Prod.fst ++ [prim_path ++ "/" ++ sanitize mesh.name] ∧
       ∃ pr', lookupL (importMesh sanitize prim_path offset stage mesh).1
           (prim_path ++ "/" ++ sanitize mesh.name) = some pr' ∧
         pr'.typeName = "Mesh")) := by
  constructor
  · intro pr hpr
    rw [importMesh_found sanitize prim_path offset stage mesh pr hpr]
    refine ⟨updIn_map_fst_of_any stage _ _ (any_of_lookupL_some stage _ pr hpr),
      _, lookupL_updIn_self stage _ _, rfl, ?_, ?_, ?_, ?_⟩
    · dsimp only
      rw [lookupL_updIn_other _ "subdivisionScheme" _ "points" (by decide),
        lookupL_updIn_other _ "primvars:st" _ "points" (by decide),
        lookupL_updIn_other _ "normals" _ "points" (by decide),
        lookupL_updIn_other _ "faceVertexIndices" _ "points" (by decide),
        lookupL_updIn_other _ "faceVertexCounts" _ "points" (by decide),
        lookupL_updIn_self _ "points" _]
    · dsimp only
      rw [lookupL_updIn_other _ "subdivisionScheme" _ "faceVertexCounts"
          (by decide),
        lookupL_updIn_other _ "primvars:st" _ "faceVertexCounts" (by decide),
        lookupL_updIn_other _ "normals" _ "faceVertexCounts" (by decide),
        lookupL_updIn_other _ "faceVertexIndices" _ "faceVertexCounts"
          (by decide),
        lookupL_updIn_self _ "faceVertexCounts" _]
    · dsimp only
      rw [lookupL_updIn_other _ "subdivisionScheme" _ "faceVertexIndices"
          (by decide),
        lookupL_updIn_other _ "primvars:st" _ "faceVertexIndices" (by decide),
        lookupL_updIn_other _ "normals" _ "faceVertexIndices" (by decide),
        lookupL_updIn_self _ "faceVertexIndices" _]
    · dsimp only
      rw [lookupL_updIn_other _ "subdivisionScheme" _ "normals" (by decide),
        lookupL_updIn_other _ "primvars:st" _ "normals" (by decide),
        lookupL_updIn_self _ "normals" _]
  · intro hnone
    rw [importMesh_notfound sanitize prim_path offset stage mesh hnone]
    constructor
    · show (stage ++ _).map Prod.fst = _
      rw [List.map_append, List.map_cons, List.map_nil]
    · exact ⟨_, lookupL_append_single_self stage _ _
        (any_of_lookupL_none stage _ hnone), rfl⟩

/-- Witness for C6 at concrete inputs: a stage already holding a prim at
the computed path "/h/m" keeps exactly the path list ["/h/m"], and the
empty stage gains exactly that path. -/
theorem c6_import_mesh_update_or_create_witness :
    ((importMesh (fun s => s) "/h" ((0 : ℚ), (0 : ℚ), (0 : ℚ))
        [("/h/m", { typeName := "Mesh", attrs := [] })] cxMesh).1.map Prod.fst =
      ["/h/m"]) ∧
    ((importMesh (fun s => s) "/h" ((0 : ℚ), (0 : ℚ), (0 : ℚ))
        [] cxMesh).1.map Prod.fst = ["/h/m"]) := by
  constructor
  · exact ((c6_import_mesh_update_or_create (fun s => s) "/h"
      ((0 : ℚ), (0 : ℚ), (0 : ℚ))
      [("/h/m", { typeName := "Mesh", attrs := [] })] cxMesh).1
      { typeName := "Mesh", attrs := [] } rfl).1
  · exact ((c6_import_mesh_update_or_create (fun s => s) "/h"
      ((0 : ℚ), (0 : ℚ), (0 : ℚ)) [] cxMesh).2 rfl).1

theorem length_flatMap_const {α β : Type} (l : List α) (f : α → List β) (n : Nat)
    (h : ∀ a ∈ l, (f a).length = n) : (l.flatMap f).length = n * l.length := by
  induction l with
  | nil => simp
  | cons a rest ih =>
      rw [List.flatMap_cons, List.length_append, h a (List.mem_cons_self a rest),
        ih (fun b hb => h b (List.mem_cons_of_mem a hb)), List.length_cons,
        Nat.mul_succ]
      exact Nat.add_comm n (n * rest.length)

/-- C3 counterexample: for `cxMesh` (two triangles sharing vertex 0, face 0
masked out), the exported flattened vertex-index array is not free of the
masked face's vertices — vertex 0 of the masked face 0 still occurs,
because face 1 shares it. -/
theorem c3_counterexample :
    ¬ (∀ fn, cxMesh.face_mask.getD fn false = false →
        ∀ v ∈ (cxMesh.fvert.getD fn []).take cxMesh.vertsPerFaceForExport,
          v ∉ pruneIdx cxMesh.face_mask cxMesh.vertsPerFaceForExport
                cxMesh.fvert) := by
  intro h
  exact h 0 rfl 0 (by decide) (by decide)

/-- C3 (amended to what the code does): every index the pruning loop emits
comes from an unmasked face (so masked faces are excluded entirely, both
for vertex and UV indices), and the faceVertexCounts array has exactly one
entry per unmasked face, each equal to the export vertex-per-face count;
but vertices shared with an unmasked face may still be referenced. -/
theorem c3_masked_faces_excluded (mask : List Bool) (n : Nat)
    (rows fuvs : List (List Nat)) (hn : 0 < n) :
    (nfaceList (pruneIdx mask n rows) n).length =
      ((List.range rows.length).filter (fun fn => mask.getD fn false)).length ∧
    (∀ c ∈ nfaceList (pruneIdx mask n rows) n, c = n) ∧
    (∀ x ∈ pruneIdx mask n rows, ∃ fn i, fn < rows.length ∧
      mask.getD fn false = true ∧ i < n ∧ x = (rows.getD fn []).getD i 0) ∧
    (∀ x ∈ pruneUVIdx mask n rows fuvs, ∃ fn i, fn < rows.length ∧
      mask.getD fn false = true ∧ i < n ∧ x = (fuvs.getD fn []).getD i 0) := by
  refine ⟨?_, ?_, ?_, ?_⟩
  · have hlen : (pruneIdx mask n rows).length =
        n * ((List.range rows.length).filter
          (fun fn => mask.getD fn false)).length := by
      apply length_flatMap_const
      intro a _
      rw [List.length_map, List.length_range]
    rw [nfaceList, List.length_replicate, hlen, Nat.mul_div_cancel_left _ hn]
  · intro c hc
    exact List.eq_of_mem_replicate hc
  · intro x hx
    rw [pruneIdx, List.mem_flatMap] at hx
    obtain ⟨fn, hfn, hx⟩ := hx
    rw [List.mem_filter, List.mem_range] at hfn
    rw [List.mem_map] at hx
    obtain ⟨i, hi, rfl⟩ := hx
    rw [List.mem_range] at hi
    exact ⟨fn, i, hfn.1, hfn.2, hi, rfl⟩
  · intro x hx
    rw [pruneUVIdx, List.mem_flatMap] at hx
    obtain ⟨fn, hfn, hx⟩ := hx
    rw [List.mem_filter, List.mem_range] at hfn
    rw [List.mem_map] at hx
    obtain ⟨i, hi, rfl⟩ := hx
    rw [List.mem_range] at hi
    exact ⟨fn, i, hfn.1, hfn.2, hi, rfl⟩

/-- Witness for the amended C3 at `cxMesh`'s data. -/
theorem c3_masked_faces_excluded_witness :
    (nfaceList (pruneIdx [false, true] 3 [[0, 1, 2], [0, 3, 4]]) 3).length =
      ((List.range ([[0, 1, 2], [0, 3, 4]] : List (List Nat)).length).filter
        (fun fn => ([false, true] : List Bool).getD fn false)).length ∧
    (∀ c ∈ nfaceList (pruneIdx [false, true] 3 [[0, 1, 2], [0, 3, 4]]) 3,
      c = 3) ∧
    (∀ x ∈ pruneIdx [false, true] 3 [[0, 1, 2], [0, 3, 4]],
      ∃ fn i, fn < ([[0, 1, 2], [0, 3, 4]] : List (List Nat)).length ∧
        ([false, true] : List Bool).getD fn false = true ∧ i < 3 ∧
        x = (([[0, 1, 2], [0, 3, 4]] : List (List Nat)).getD fn []).getD i 0) ∧
    (∀ x ∈ pruneUVIdx [false, true] 3 [[0, 1, 2], [0, 3, 4]]
        [[0, 1, 2], [3, 4, 5]],
      ∃ fn i, fn < ([[0, 1, 2], [0, 3, 4]] : List (List Nat)).length ∧
        ([false, true] : List Bool).getD fn false = true ∧ i < 3 ∧
        x = (([[0, 1, 2], [3, 4, 5]] : List (List Nat)).getD fn []).getD i 0) :=
  c3_masked_faces_excluded [false, true] 3 [[0, 1, 2], [0, 3, 4]]
    [[0, 1, 2], [3, 4, 5]] (by decide)

end HumanGen
